import Mathlib

/-!
Verification of structural utilities and the generalized-module layer of the
`elegy` training library.  The Python sources in `elegy/utils.py` are embedded
shallowly: nested dict/list/tuple parameter trees become the inductive type
`Struct`, paths become lists of `Seg` segments, and each utility function is
translated into an executable Lean definition.
-/

/-- A path segment: an integer index (list/tuple position) or a string key
(dict entry), mirroring `types.Path = Tuple[Union[str, int], ...]`. -/
inductive Seg where
  | idx : Nat → Seg
  | key : String → Seg
deriving DecidableEq, Repr
/-- A path is an ordered sequence of segments. -/
abbrev SPath := List Seg
/-- A nested structure built from dicts, lists and tuples with leaves of
type `α`, the shape of the parameter trees `elegy.utils` traverses. -/
inductive Struct (α : Type) where
  | leaf : α → Struct α
  | list : List (Struct α) → Struct α
  | tup : List (Struct α) → Struct α
  | dict : List (String × Struct α) → Struct α

namespace Decimal

/-- Little-endian decimal digits of `n`, with explicit fuel so that the
function is structurally recursive; `decDigits` supplies sufficient fuel. -/
def decDigitsF : Nat → Nat → List Nat
  | _, 0 => []
  | 0, _ + 1 => []
  | f + 1, n + 1 => ((n + 1) % 10) :: decDigitsF f ((n + 1) / 10)

/-- Little-endian decimal digits of `n` (empty for `0`). -/
def decDigits (n : Nat) : List Nat := decDigitsF n n

/-- Numeric value of a little-endian digit list. -/
def ofDec : List Nat → Nat
  | [] => 0
  | d :: ds => d + 10 * ofDec ds

/-- Decimal rendering of a natural number, the digits of Python `str(n)`. -/
def natDecimalChars (n : Nat) : List Char :=
  if n = 0 then [Char.ofNat 48] else ((decDigits n).map Nat.digitChar).reverse

/-- Python `str(n)` for a natural number. -/
def natDecimal (n : Nat) : String := String.mk (natDecimalChars n)

/-- Insert a thousands separator after every three digits of a little-endian
digit-character list, as the `,` option of Python format specs does. -/
def commaRev : List Char → List Char
  | a :: b :: c :: d :: rest => a :: b :: c :: Char.ofNat 44 :: commaRev (d :: rest)
  | l => l

/-- Python `f"{n:,}"`: decimal rendering with thousands separators. -/
def commaGroup (n : Nat) : String :=
  String.mk (commaRev (if n = 0 then [Char.ofNat 48] else (decDigits n).map Nat.digitChar)).reverse

/-- Round `num / den` to the nearest integer, ties to even: the rounding of
Python float formatting, modelled exactly on rationals. -/
def roundHalfEvenDiv (num den : Nat) : Nat :=
  let q := num / den
  let r := num % den
  if 2 * r < den then q
  else if den < 2 * r then q + 1
  else if q % 2 = 0 then q else q + 1

/-- Python `f"{size / den :,.1f}"`: one decimal digit, thousands
separators in the integer part. -/
def oneDecimalStr (size den : Nat) : String :=
  let t := roundHalfEvenDiv (10 * size) den
  commaGroup (t / 10) ++ "." ++ String.mk [Nat.digitChar (t % 10)]

/-- A string consisting of an integer part, a dot, and exactly one decimal
digit. -/
def OneDecimalShape (s : String) : Prop :=
  ∃ a d, d < 10 ∧ s = a ++ "." ++ String.mk [Nat.digitChar d]

end Decimal

namespace ElegyUtils
open Decimal

mutual

/-- Embedding of `_leaf_paths` (utils.py lines 166-177): list/tuple elements
extend the path with their integer index, dict entries with their key, and a
leaf yields the accumulated path. -/
def leafPathsS (path : SPath) : Struct α → List (SPath × α)
  | .leaf v => [(path, v)]
  | .list xs => leafPathsIdx path 0 xs
  | .tup xs => leafPathsIdx path 0 xs
  | .dict kvs => leafPathsKey path kvs

/-- The `enumerate` loop of `_leaf_paths` over list/tuple elements. -/
def leafPathsIdx (path : SPath) (i : Nat) : List (Struct α) → List (SPath × α)
  | [] => []
  | x :: xs => leafPathsS (path ++ [Seg.idx i]) x ++ leafPathsIdx path (i + 1) xs

/-- The `items()` loop of `_leaf_paths` over dict entries. -/
def leafPathsKey (path : SPath) : List (String × Struct α) → List (SPath × α)
  | [] => []
  | (k, x) :: kvs => leafPathsS (path ++ [Seg.key k]) x ++ leafPathsKey path kvs

end

/-- Embedding of `leaf_paths` (utils.py lines 180-181). -/
def leaf_paths (inputs : Struct α) : List (SPath × α) :=
  leafPathsS [] inputs

/-- Python `str` applied to a path segment. -/
def segStr : Seg → String
  | .idx i => natDecimal i
  | .key s => s

/-- Whether a segment is a dict key. -/
def Seg.isKey : Seg → Bool
  | .idx _ => false
  | .key _ => true

/-- Whether a segment is a list/tuple index. -/
def Seg.isIdx : Seg → Bool
  | .idx _ => true
  | .key _ => false

mutual

/-- Embedding of `_flatten_names` (utils.py lines 184-195): dict entries
extend the path with their key, but list/tuple elements leave the path
unchanged, and a leaf yields the accumulated path. -/
def flattenNamesS (path : SPath) : Struct α → List (SPath × α)
  | .leaf v => [(path, v)]
  | .list xs => flattenNamesL path xs
  | .tup xs => flattenNamesL path xs
  | .dict kvs => flattenNamesD path kvs

/-- The list/tuple loop of `_flatten_names`: the path is not extended. -/
def flattenNamesL (path : SPath) : List (Struct α) → List (SPath × α)
  | [] => []
  | x :: xs => flattenNamesS path x ++ flattenNamesL path xs

/-- The dict loop of `_flatten_names`. -/
def flattenNamesD (path : SPath) : List (String × Struct α) → List (SPath × α)
  | [] => []
  | (k, x) :: kvs => flattenNamesS (path ++ [Seg.key k]) x ++ flattenNamesD path kvs

end

/-- Embedding of `flatten_names` (utils.py lines 198-201): every collected
path is serialized by joining its segments with `"/"`. -/
def flatten_names (inputs : Struct α) : List (String × α) :=
  (flattenNamesS [] inputs).map (fun pr => (String.intercalate "/" (pr.1.map segStr), pr.2))

/-- The string `f"{name}_{i}"` tried by `get_unique_name`. -/
def suffixName (name : String) (i : Nat) : String :=
  name ++ "_" ++ natDecimal i

/-- The `while f"{name}_{i}" in names: i += 1` loop of
`get_unique_name`, with fuel; `get_unique_name` passes enough fuel for the
loop to reach a free suffix. -/
def findSuffixIdx (names : List String) (name : String) : Nat → Nat → Nat
  | 0, i => i
  | fuel + 1, i =>
    if suffixName name i ∈ names then findSuffixIdx names name fuel (i + 1) else i

/-- Embedding of `get_unique_name` (utils.py lines 204-217).  The Python
set of used names is modelled as a list; the function returns the chosen
name together with the updated set (`names.add(name)`). -/
def get_unique_name (names : List String) (name : String) : String × List String :=
  if name ∈ names then
    let i := findSuffixIdx names name (names.length + 1) 1
    let name := suffixName name i
    (name, name :: names)
  else
    (name, name :: names)

/-- Feeding a list of candidate names sequentially through one used-name set,
returning the allocated names in order. -/
def allocate_names (names : List String) : List String → List String
  | [] => []
  | c :: cs =>
    let r := get_unique_name names c
    r.1 :: allocate_names r.2 cs

/-- Whether the dict `d` has an entry named `k` (Python `k in d`). -/
def containsKey (d : List (String × β)) (k : String) : Bool :=
  d.any (fun kv => kv.1 == k)

/-- Python dict lookup `d[k]` (first entry wins). -/
def dictGet (d : List (String × β)) (k : String) : Option β :=
  (d.find? (fun kv => kv.1 == k)).map Prod.snd

/-- Python `d[k] = v`: overwrite in place if the key exists, else append. -/
def dictSet (d : List (String × β)) (k : String) (v : β) : List (String × β) :=
  if containsKey d k then d.map (fun kv => if kv.1 == k then (k, v) else kv)
  else d ++ [(k, v)]

/-- Python `d.pop(k)` restricted to its removal effect. -/
def dictPop (d : List (String × β)) (k : String) : List (String × β) :=
  d.filter (fun kv => !(kv.1 == k))

/-- Embedding of `_merge_with_unique_names` (utils.py lines 233-243): a fresh
empty used-name set, `output = dict(a)`, then
`output[get_unique_name(names, name)] = value` for each entry of `b`. -/
def mergeUniqueStep (a : List (String × β)) (b : List (String × β)) : List (String × β) :=
  (b.foldl
    (fun (acc : List (String × β) × List String) kv =>
      let r := get_unique_name acc.2 kv.1
      (dictSet acc.1 r.1 kv.2, r.2))
    (a, [])).1

/-- Embedding of `merge_with_unique_names` (utils.py lines 220-231). -/
def merge_with_unique_names (a : List (String × β)) (rest : List (List (String × β))) :
    List (String × β) :=
  rest.foldl (fun acc b => mergeUniqueStep acc b) a

/-- Plain left-to-right Python dict update `{**a, **b}`. -/
def dictUpdate (a b : List (String × β)) : List (String × β) :=
  b.foldl (fun acc kv => dictSet acc kv.1 kv.2) a

mutual

/-- Embedding of `merge_params` (utils.py lines 276-300).  Keys found in
exactly one dict keep their value, shared keys are merged recursively,
lists/tuples must have equal lengths and merge elementwise, and every other
combination raises `ValueError` (modelled by `Except.error`). -/
def merge_params : Struct α → Struct α → Except String (Struct α)
  | .dict a, .dict b =>
      match mergeDictEntries a b with
      | .ok shared => .ok (.dict (shared ++ b.filter (fun kv => !(containsKey a kv.1))))
      | .error e => .error e
  | .list a, .list b =>
      if a.length ≠ b.length then
        .error "Cannot merge two lists of different lengths"
      else
        match mergeZip a b with
        | .ok zs => .ok (.list zs)
        | .error e => .error e
  | .tup a, .tup b =>
      if a.length ≠ b.length then
        .error "Cannot merge two tuples of different lengths"
      else
        match mergeZip a b with
        | .ok zs => .ok (.tup zs)
        | .error e => .error e
  | _, _ => .error "Cannot merge structs"

/-- The dict part of `merge_params`: each entry of `a` keeps its value when
its key is absent from `b` and is merged recursively when present. -/
def mergeDictEntries :
    List (String × Struct α) → List (String × Struct α) →
      Except String (List (String × Struct α))
  | [], _ => .ok []
  | (k, v) :: rest, b =>
      match dictGet b k with
      | none =>
          match mergeDictEntries rest b with
          | .ok entries => .ok ((k, v) :: entries)
          | .error e => .error e
      | some w =>
          match merge_params v w with
          | .ok vr =>
              match mergeDictEntries rest b with
              | .ok entries => .ok ((k, vr) :: entries)
              | .error e => .error e
          | .error e => .error e

/-- The `zip` part of `merge_params` for lists/tuples. -/
def mergeZip : List (Struct α) → List (Struct α) → Except String (List (Struct α))
  | x :: xs, y :: ys =>
      match merge_params x y with
      | .ok z =>
          match mergeZip xs ys with
          | .ok zs => .ok (z :: zs)
          | .error e => .error e
      | .error e => .error e
  | _, _ => .ok []

end

/-- Indexing one step, `params[key]`: a successful dict-key or sequence-index
lookup, `none` wherever Python would raise. -/
def structIndex : Struct α → Seg → Option (Struct α)
  | .dict kvs, .key k => dictGet kvs k
  | .list xs, .idx i => xs.get? i
  | .tup xs, .idx i => xs.get? i
  | _, _ => none

/-- Embedding of `get_path_params` (utils.py lines 303-310): walk the path,
returning `none` as soon as one lookup fails. -/
def get_path_params : SPath → Struct α → Option (Struct α)
  | [], params => some params
  | k :: path, params =>
      match structIndex params k with
      | none => none
      | some p => get_path_params path p

/-- The `(count, units)` pair computed by `format_size` (utils.py lines
463-474): strict magnitude thresholds pick the unit; GB/MB/KB are rendered
with one decimal digit, B as a plain integer. -/
def formatSizeParts (size : Nat) : String × String :=
  if 1000000000 < size then (oneDecimalStr size 1000000000, "GB")
  else if 1000000 < size then (oneDecimalStr size 1000000, "MB")
  else if 1000 < size then (oneDecimalStr size 1000, "KB")
  else (commaGroup size, "B")

/-- Embedding of `format_size`. -/
def format_size (size : Nat) : String :=
  "[dim]" ++ (formatSizeParts size).1 ++ " " ++ (formatSizeParts size).2 ++ "[/dim]"

/-- A leaf array as the summary code sees it: element count (`x.size`) and
bytes per element (`x.dtype.itemsize`). -/
structure ArrayLeaf where
  size : Nat
  itemsize : Nat

/-- Embedding of `parameters_count` (utils.py lines 246-248), after the
external `jax.tree_leaves` has flattened the tree to its leaves. -/
def parameters_count (params : List ArrayLeaf) : Nat :=
  (params.map ArrayLeaf.size).sum

/-- Embedding of `parameters_bytes` (utils.py lines 251-253). -/
def parameters_bytes (params : List ArrayLeaf) : Nat :=
  (params.map (fun x => x.size * x.itemsize)).sum

/-- Embedding of `format_count_and_size` (utils.py lines 454-460). -/
def format_count_and_size (params : List ArrayLeaf) (addPadding : Bool) : String :=
  let padding := if addPadding then "\x7bpad\x7d" else ""
  if 0 < parameters_count params then
    "[green]" ++ commaGroup (parameters_count params) ++ "[/]" ++ padding ++ "    " ++
      format_size (parameters_bytes params)
  else ""

/-- A parameter of a Python signature: its name and whether it is the
catch-all `**kwargs` (`inspect.Parameter.VAR_KEYWORD`). -/
structure SigParam where
  name : String
  isVarKeyword : Bool

/-- The rename loop of `inject_dependencies` (utils.py lines 90-93):
`kwargs[new] = kwargs.pop(old)` for each pair whose old key is present. -/
def applyRename (rename : List (String × String)) (kwargs : List (String × β)) :
    List (String × β) :=
  rename.foldl
    (fun kw pr =>
      match dictGet kw pr.1 with
      | some v => dictSet (dictPop kw pr.1) pr.2 v
      | none => kw)
    kwargs

/-- Embedding of the `wrapper` closure built by `inject_dependencies`
(utils.py lines 85-104): given the reference signature, the rename map and a
concrete call, it returns the positional arguments and the keyword dict that
the wrapped target finally receives. -/
def inject_dependencies (fParams : List SigParam) (rename : List (String × String))
    (args : List β) (kwargs : List (String × β)) : List β × List (String × β) :=
  let nArgs := args.length
  let argNames := (fParams.take nArgs).map SigParam.name
  let kwargNames := (fParams.drop nArgs).map SigParam.name
  let kwargs := applyRename rename kwargs
  let kwargs :=
    if fParams.any SigParam.isVarKeyword then kwargs
    else
      kwargNames.filterMap
        (fun a =>
          if argNames.contains a then none
          else
            match dictGet kwargs a with
            | some v => some (a, v)
            | none => none)
  (args, kwargs)

/-- Spec-side relation for C10: `v` is reached from `s` by indexing with each
segment of the path in order (integer index into a list/tuple, key lookup in
a dict). -/
inductive Descends {α : Type} : Struct α → SPath → Struct α → Prop where
  | nil : ∀ s, Descends s [] s
  | list : ∀ {xs : List (Struct α)} {i x p v},
      xs.get? i = some x → Descends x p v → Descends (.list xs) (Seg.idx i :: p) v
  | tup : ∀ {xs : List (Struct α)} {i x p v},
      xs.get? i = some x → Descends x p v → Descends (.tup xs) (Seg.idx i :: p) v
  | dict : ∀ {kvs : List (String × Struct α)} {k x p v},
      dictGet kvs k = some x → Descends x p v → Descends (.dict kvs) (Seg.key k :: p) v

/-- Spec-side relation for C3: leaf `v` sits at path `p` in `s`, one segment
per level of nesting, with the integer index as the segment for a list/tuple
element and the key as the segment for a dict entry. -/
inductive LeafAt {α : Type} : Struct α → SPath → α → Prop where
  | leaf : ∀ v, LeafAt (.leaf v) [] v
  | list : ∀ {xs : List (Struct α)} {i x p v},
      xs.get? i = some x → LeafAt x p v → LeafAt (.list xs) (Seg.idx i :: p) v
  | tup : ∀ {xs : List (Struct α)} {i x p v},
      xs.get? i = some x → LeafAt x p v → LeafAt (.tup xs) (Seg.idx i :: p) v
  | dict : ∀ {kvs : List (String × Struct α)} {k x p v},
      (k, x) ∈ kvs → LeafAt x p v → LeafAt (.dict kvs) (Seg.key k :: p) v

/-- Whether a key list contains a duplicate. -/
def hasDupKeys : List String → Bool
  | [] => false
  | k :: ks => ks.contains k || hasDupKeys ks

mutual

/-- Every dict inside the structure has pairwise-distinct keys: the invariant
that Python dicts provide for the trees `merge_params` receives. -/
def nodupKeysS : Struct α → Bool
  | .leaf _ => true
  | .list xs => nodupKeysL xs
  | .tup xs => nodupKeysL xs
  | .dict kvs => !hasDupKeys (kvs.map Prod.fst) && nodupKeysD kvs

/-- `nodupKeysS` over list/tuple elements. -/
def nodupKeysL : List (Struct α) → Bool
  | [] => true
  | x :: xs => nodupKeysS x && nodupKeysL xs

/-- `nodupKeysS` over dict values. -/
def nodupKeysD : List (String × Struct α) → Bool
  | [] => true
  | (_, x) :: kvs => nodupKeysS x && nodupKeysD kvs

end

/-- Whether two values match one of the three merge rules of `merge_params`
(dict with dict, list with list, tuple with tuple). -/
def sameMergeRule {α : Type} : Struct α → Struct α → Bool
  | .dict _, .dict _ => true
  | .list _, .list _ => true
  | .tup _, .tup _ => true
  | _, _ => false

/-- Spec-side relation for C6: the two trees are incompatible at the shared
path `p` — no merge rule applies there, or two lists/tuples there differ in
length. -/
inductive ConflictAt {α : Type} : SPath → Struct α → Struct α → Prop where
  | mismatch : ∀ {a b : Struct α}, sameMergeRule a b = false → ConflictAt [] a b
  | listLen : ∀ {as bs : List (Struct α)}, as.length ≠ bs.length →
      ConflictAt [] (.list as) (.list bs)
  | tupLen : ∀ {as bs : List (Struct α)}, as.length ≠ bs.length →
      ConflictAt [] (.tup as) (.tup bs)
  | listStep : ∀ {as bs : List (Struct α)} {i x y p},
      as.get? i = some x → bs.get? i = some y → ConflictAt p x y →
      ConflictAt (Seg.idx i :: p) (.list as) (.list bs)
  | tupStep : ∀ {as bs : List (Struct α)} {i x y p},
      as.get? i = some x → bs.get? i = some y → ConflictAt p x y →
      ConflictAt (Seg.idx i :: p) (.tup as) (.tup bs)
  | dictStep : ∀ {a b : List (String × Struct α)} {k x y p},
      dictGet a k = some x → dictGet b k = some y → ConflictAt p x y →
      ConflictAt (Seg.key k :: p) (.dict a) (.dict b)

/-- Spec-side relation for C6: `r` is the structural merge of `a` and `b` —
it has every key of both dicts, one-sided values are taken verbatim, shared
values are merged recursively, and lists/tuples merge elementwise. -/
inductive MergedTree {α : Type} : Struct α → Struct α → Struct α → Prop where
  | dict : ∀ {a b r : List (String × Struct α)},
      (∀ k, containsKey r k = true ↔ (containsKey a k = true ∨ containsKey b k = true)) →
      (∀ k v, dictGet a k = some v → dictGet b k = none → dictGet r k = some v) →
      (∀ k v, dictGet b k = some v → dictGet a k = none → dictGet r k = some v) →
      (∀ k va vb vr, dictGet a k = some va → dictGet b k = some vb →
        dictGet r k = some vr → MergedTree va vb vr) →
      MergedTree (.dict a) (.dict b) (.dict r)
  | list : ∀ {as bs rs : List (Struct α)},
      as.length = bs.length → rs.length = as.length →
      (∀ i x y z, as.get? i = some x → bs.get? i = some y → rs.get? i = some z →
        MergedTree x y z) →
      MergedTree (.list as) (.list bs) (.list rs)
  | tup : ∀ {as bs rs : List (Struct α)},
      as.length = bs.length → rs.length = as.length →
      (∀ i x y z, as.get? i = some x → bs.get? i = some y → rs.get? i = some z →
        MergedTree x y z) →
      MergedTree (.tup as) (.tup bs) (.tup rs)

end ElegyUtils

namespace SpecModel
open ElegyUtils

/-- Whether the first path segment of a pair is `sg`. -/
def headIs (sg : Seg) (pr : SPath × α) : Bool :=
  decide (pr.1.head? = some sg)

/-- Strip the leading segment of every pair's path. -/
def stripHead (prs : List (SPath × α)) : List (SPath × α) :=
  prs.map (fun pr => (pr.1.tail, pr.2))

/-- The string carried by a key segment. -/
def segKeyStr : Seg → String
  | .key s => s
  | .idx _ => ""

mutual

/-- Modelled from the spec: the unflatten direction of the path
flatten/unflatten utility.  `unflatten` has no counterpart in the repository
sources (only flattening, `leaf_paths`, is implemented); following the
spec's words it converts a flat list of (path, leaf) pairs back into a
nested structure: a single empty-path pair is a leaf, and otherwise
consecutive pairs sharing a first segment become one child each — a list
when the segments are integer indices, a dict when they are keys.  `fuel`
bounds the recursion; the wrapper `unflatten` supplies enough for any input
produced by `leaf_paths`. -/
def unflattenF : Nat → List (SPath × α) → Option (Struct α)
  | _, [] => none
  | _, ([], v) :: rest => if rest.isEmpty then some (Struct.leaf v) else none
  | 0, (_ :: _, _) :: _ => none
  | fuel + 1, (sg :: p, v) :: rest =>
      match unflattenGroups fuel ((sg :: p, v) :: rest) with
      | none => none
      | some groups =>
          if groups.all (fun g => Seg.isIdx g.1) then
            some (Struct.list (groups.map Prod.snd))
          else if groups.all (fun g => Seg.isKey g.1) then
            some (Struct.dict (groups.map (fun g => (segKeyStr g.1, g.2))))
          else none

/-- Modelled from the spec: split the pairs into consecutive runs sharing a
first segment and rebuild each run's child recursively. -/
def unflattenGroups : Nat → List (SPath × α) → Option (List (Seg × Struct α))
  | _, [] => some []
  | 0, _ :: _ => none
  | _ + 1, ([], _) :: _ => none
  | fuel + 1, (sg :: p, v) :: rest =>
      match unflattenF fuel (stripHead (((sg :: p, v) :: rest).takeWhile (headIs sg))) with
      | none => none
      | some child =>
          match unflattenGroups fuel (((sg :: p, v) :: rest).dropWhile (headIs sg)) with
          | none => none
          | some others => some ((sg, child) :: others)

end

/-- Recursion budget: two units per path segment plus one per pair cover
every alternation of `unflattenF` and `unflattenGroups`. -/
def pairsNu (pairs : List (SPath × α)) : Nat :=
  (pairs.map (fun pr => 2 * pr.1.length + 1)).sum

/-- `unflatten` with fuel larger than any recursion the pairs can require. -/
def unflatten (pairs : List (SPath × α)) : Option (Struct α) :=
  unflattenF (pairsNu pairs + 1) pairs

mutual

/-- The structures on which flatten/unflatten can round-trip: no tuples
(a tuple flattens to the same pairs as a list, so no inverse can tell them
apart), no empty containers (they leave no pairs at all), and distinct dict
keys at every level. -/
def roundTrippable : Struct α → Bool
  | .leaf _ => true
  | .list xs => !xs.isEmpty && roundTrippableL xs
  | .tup _ => false
  | .dict kvs =>
      !kvs.isEmpty && !ElegyUtils.hasDupKeys (kvs.map Prod.fst) && roundTrippableD kvs

/-- `roundTrippable` over list elements. -/
def roundTrippableL : List (Struct α) → Bool
  | [] => true
  | x :: xs => roundTrippable x && roundTrippableL xs

/-- `roundTrippable` over dict values. -/
def roundTrippableD : List (String × Struct α) → Bool
  | [] => true
  | (_, x) :: kvs => roundTrippable x && roundTrippableD kvs

end

end SpecModel

namespace AdapterModel
open ElegyUtils

deriving instance DecidableEq for Except

/-- Modelled from the spec (§4.3): the recording/substitution context of the
imperative-closure adapter (the `HaikuModule` wrapper is not under `src/`,
only its test).  During `init` the trace registers parameters and states
with their initializer values; during `apply` registered reads return the
caller-supplied values and `set_state` writes are captured as the new state
collection. -/
structure ImpCtx where
  initializing : Bool
  suppliedParams : List (String × ℤ)
  suppliedStates : List (String × ℤ)
  regParams : List (String × ℤ)
  regStates : List (String × ℤ)
  outStates : List (String × ℤ)

/-- The trace monad of the imperative adapter. -/
abbrev ImpM := StateT ImpCtx (Except String)

/-- Modelled from the spec: `get_parameter(name, init)`. -/
def getParameter (name : String) (initVal : ℤ) : ImpM ℤ := do
  let ctx ← get
  if ctx.initializing then
    set { ctx with regParams := dictSet ctx.regParams name initVal }
    pure initVal
  else
    match dictGet ctx.suppliedParams name with
    | some v => pure v
    | none => throw ("Missing parameter " ++ name)

/-- Modelled from the spec: `get_state(name, init)`. -/
def getState (name : String) (initVal : ℤ) : ImpM ℤ := do
  let ctx ← get
  if ctx.initializing then
    set { ctx with regStates := dictSet ctx.regStates name initVal }
    pure initVal
  else
    match dictGet ctx.suppliedStates name with
    | some v => pure v
    | none => throw ("Missing state " ++ name)

/-- Modelled from the spec: `set_state(name, value)`. -/
def setState (name : String) (v : ℤ) : ImpM Unit :=
  modify (fun ctx => { ctx with outStates := dictSet ctx.outStates name v })

/-- Modelled from the spec (§8 scenario 5): the module that reads state `n`
(initial 0) and parameter `w` (initial 2.0), sets `n` to `n + 1`, and
returns `x * w`. -/
def scenarioBody (x : ℤ) : ImpM ℤ := do
  let n ← getState "n" 0
  let w ← getParameter "w" 2
  setState "n" (n + 1)
  pure (x * w)

/-- Modelled from the spec (§4.3): `init` runs one registering trace and
captures the registered parameter and state collections. -/
def impInit (body : ℤ → ImpM ℤ) (_rng : Nat) (x : ℤ) :
    Except String (ℤ × List (String × ℤ) × List (String × ℤ)) := do
  let (y, ctx) ← (body x).run ⟨true, [], [], [], [], []⟩
  pure (y, ctx.regParams, ctx.regStates)

/-- Modelled from the spec (§4.3): `apply` re-executes the trace
substituting the supplied collections; `set_state` changes become the
returned state collection. -/
def impApply (body : ℤ → ImpM ℤ) (params states : List (String × ℤ)) (x : ℤ) :
    Except String (ℤ × List (String × ℤ) × List (String × ℤ)) := do
  let (y, ctx) ← (body x).run ⟨false, params, states, [], [], states⟩
  pure (y, params, ctx.outStates)

/-- Modelled from the spec (§4.4): context of the declarative-lazy adapter
(the `LinenModule` wrapper is not under `src/`, only its test): lazily bound
parameters plus named mutable collections. -/
structure LinCtx where
  initializing : Bool
  suppliedParams : List (String × ℤ)
  regParams : List (String × ℤ)
  collections : List (String × List (String × ℤ))

/-- The trace monad of the declarative adapter. -/
abbrev LinM := StateT LinCtx (Except String)

/-- Lookup inside a named collection. -/
def colGet (cols : List (String × List (String × ℤ))) (col name : String) : Option ℤ :=
  match dictGet cols col with
  | some d => dictGet d name
  | none => none

/-- Write inside a named collection, creating it if necessary. -/
def colSet (cols : List (String × List (String × ℤ))) (col name : String) (v : ℤ) :
    List (String × List (String × ℤ)) :=
  match dictGet cols col with
  | some d => dictSet cols col (dictSet d name v)
  | none => dictSet cols col [(name, v)]

/-- Modelled from the spec: `has_variable(col, name)` — a declared variable
is queryable for prior existence. -/
def hasVariable (col name : String) : LinM Bool := do
  let ctx ← get
  pure (colGet ctx.collections col name).isSome

/-- Modelled from the spec: `variable(col, name, init)` declares the entry
on first use and keeps the existing value otherwise. -/
def declareVariable (col name : String) (initVal : ℤ) : LinM Unit := do
  let ctx ← get
  match colGet ctx.collections col name with
  | some _ => pure ()
  | none => set { ctx with collections := colSet ctx.collections col name initVal }

/-- Read a declared variable. -/
def varGet (col name : String) : LinM ℤ := do
  let ctx ← get
  match colGet ctx.collections col name with
  | some v => pure v
  | none => throw ("Missing variable " ++ col ++ "/" ++ name)

/-- Reassign a declared variable (the collection is mutable for the call). -/
def varSet (col name : String) (v : ℤ) : LinM Unit :=
  modify (fun ctx => { ctx with collections := colSet ctx.collections col name v })

/-- Modelled from the spec: `param(name, init)` — lazily bound on first
invocation, re-bound to the supplied value afterwards. -/
def linParam (name : String) (initVal : ℤ) : LinM ℤ := do
  let ctx ← get
  if ctx.initializing then
    set { ctx with regParams := dictSet ctx.regParams name initVal }
    pure initVal
  else
    match dictGet ctx.suppliedParams name with
    | some v => pure v
    | none => throw ("Missing parameter " ++ name)

/-- Modelled from the spec (§8 scenario 6): the declarative version of the
scenario module, incrementing `n` only once the variable already exists. -/
def scenarioBodyLin (x : ℤ) : LinM ℤ := do
  let initialized ← hasVariable "batch_stats" "n"
  declareVariable "batch_stats" "n" 0
  let w ← linParam "w" 2
  if initialized then do
    let n ← varGet "batch_stats" "n"
    varSet "batch_stats" "n" (n + 1)
  pure (x * w)

/-- Modelled from the spec (§4.4): `init` triggers the lazy binding once. -/
def linInit (body : ℤ → LinM ℤ) (_rng : Nat) (x : ℤ) :
    Except String (ℤ × List (String × ℤ) × List (String × List (String × ℤ))) := do
  let (y, ctx) ← (body x).run ⟨true, [], [], []⟩
  pure (y, ctx.regParams, ctx.collections)

/-- Modelled from the spec (§4.4): `apply` re-binds with the supplied values
and returns the updated collections. -/
def linApply (body : ℤ → LinM ℤ) (params : List (String × ℤ))
    (cols : List (String × List (String × ℤ))) (x : ℤ) :
    Except String (ℤ × List (String × ℤ) × List (String × List (String × ℤ))) := do
  let (y, ctx) ← (body x).run ⟨false, params, [], cols⟩
  pure (y, params, ctx.collections)

/-- Modelled from the spec (§4.1): the generalized interface that the
dispatch function produces. -/
structure GeneralizedModule where
  initGM : Nat → ℤ →
    Except String (ℤ × List (String × ℤ) × List (String × List (String × ℤ)))
  applyGM : List (String × ℤ) → List (String × List (String × ℤ)) → ℤ →
    Except String (ℤ × List (String × ℤ) × List (String × List (String × ℤ)))

/-- Modelled from the spec (§4.3): Adapter A behind the generalized
interface; its flat state dict becomes the "states" collection. -/
def adapterA (body : ℤ → ImpM ℤ) : GeneralizedModule where
  initGM := fun rng x =>
    (impInit body rng x).map (fun r => (r.1, r.2.1, [("states", r.2.2)]))
  applyGM := fun params cols x =>
    match dictGet cols "states" with
    | some flat =>
        (impApply body params flat x).map (fun r => (r.1, r.2.1, [("states", r.2.2)]))
    | none => .error "Missing states collection"

/-- Modelled from the spec (§4.4): Adapter B behind the generalized
interface. -/
def adapterB (body : ℤ → LinM ℤ) : GeneralizedModule where
  initGM := linInit body
  applyGM := linApply body

/-- Modelled from the spec (§4.2): the module values the dispatch function
can receive — already generalized, style A, style B, or unrecognized. -/
inductive ModuleValue where
  | generalized : GeneralizedModule → ModuleValue
  | styleA : (ℤ → ImpM ℤ) → ModuleValue
  | styleB : (ℤ → LinM ℤ) → ModuleValue
  | unsupported : ModuleValue

/-- Modelled from the spec (§4.2): check capability markers in priority
order — already-satisfies-interface first, then style A, then style B — and
fail with the unsupported-module error otherwise; a pure classification
function with no side effects. -/
def generalize : ModuleValue → Except String ModuleValue
  | .generalized gm => .ok (.generalized gm)
  | .styleA body => .ok (.generalized (adapterA body))
  | .styleB body => .ok (.generalized (adapterB body))
  | .unsupported => .error "Unsupported module type"

end AdapterModel

/-- Structural induction principle for the nested inductive `Struct`. -/
theorem Struct.inductionOn {α : Type} {P : Struct α → Prop}
    (hleaf : ∀ v, P (Struct.leaf v))
    (hlist : ∀ xs, (∀ x ∈ xs, P x) → P (Struct.list xs))
    (htup : ∀ xs, (∀ x ∈ xs, P x) → P (Struct.tup xs))
    (hdict : ∀ kvs, (∀ kv ∈ kvs, P (Prod.snd kv)) → P (Struct.dict kvs)) :
    ∀ s, P s
  | .leaf v => hleaf v
  | .list xs => hlist xs (fun x _ => Struct.inductionOn hleaf hlist htup hdict x)
  | .tup xs => htup xs (fun x _ => Struct.inductionOn hleaf hlist htup hdict x)
  | .dict kvs => hdict kvs (fun kv _ => Struct.inductionOn hleaf hlist htup hdict kv.2)
termination_by s => sizeOf s
decreasing_by
  · have h1 : sizeOf x < sizeOf xs := List.sizeOf_lt_of_mem (by assumption)
    simp only [Struct.list.sizeOf_spec]
    omega
  · have h1 : sizeOf x < sizeOf xs := List.sizeOf_lt_of_mem (by assumption)
    simp only [Struct.tup.sizeOf_spec]
    omega
  · have h1 : sizeOf kv < sizeOf kvs := List.sizeOf_lt_of_mem (by assumption)
    obtain ⟨k, v⟩ := kv
    simp only [Struct.dict.sizeOf_spec, Prod.mk.sizeOf_spec] at *
    omega

namespace Decimal

theorem ofDec_decDigitsF : ∀ f n, n ≤ f → ofDec (decDigitsF f n) = n := by
  intro f
  induction f with
  | zero =>
    intro n h
    have : n = 0 := Nat.le_zero.mp h
    subst this
    rfl
  | succ f ih =>
    intro n h
    match n with
    | 0 => rfl
    | n + 1 =>
      have hd : (n + 1) / 10 ≤ f := by omega
      simp only [decDigitsF, ofDec, ih _ hd]
      omega

theorem ofDec_decDigits (n : Nat) : ofDec (decDigits n) = n :=
  ofDec_decDigitsF n n (Nat.le_refl n)

theorem decDigits_inj {m n : Nat} (h : decDigits m = decDigits n) : m = n := by
  have := congrArg ofDec h
  rwa [ofDec_decDigits, ofDec_decDigits] at this

theorem decDigitsF_lt_ten : ∀ f n d, d ∈ decDigitsF f n → d < 10 := by
  intro f
  induction f with
  | zero =>
    intro n d hd
    match n with
    | 0 => simp [decDigitsF] at hd
    | _ + 1 => simp [decDigitsF] at hd
  | succ f ih =>
    intro n d hd
    match n with
    | 0 => simp [decDigitsF] at hd
    | n + 1 =>
      simp only [decDigitsF, List.mem_cons] at hd
      rcases hd with h | h
      · omega
      · exact ih _ _ h

theorem decDigits_lt_ten (n : Nat) : ∀ d ∈ decDigits n, d < 10 :=
  fun d hd => decDigitsF_lt_ten n n d hd

theorem digitChar_inj_aux :
    ∀ a ∈ Finset.range 10, ∀ b ∈ Finset.range 10,
      Nat.digitChar a = Nat.digitChar b → a = b := by decide

theorem map_digitChar_inj :
    ∀ l₁ l₂ : List Nat, (∀ d ∈ l₁, d < 10) → (∀ d ∈ l₂, d < 10) →
      l₁.map Nat.digitChar = l₂.map Nat.digitChar → l₁ = l₂ := by
  intro l₁
  induction l₁ with
  | nil =>
    intro l₂ _ _ h
    cases l₂ with
    | nil => rfl
    | cons b bs => simp at h
  | cons a as ih =>
    intro l₂ h₁ h₂ h
    cases l₂ with
    | nil => simp at h
    | cons b bs =>
      simp only [List.map_cons, List.cons.injEq] at h
      have ha : a ∈ Finset.range 10 := Finset.mem_range.mpr (h₁ a (by simp))
      have hb : b ∈ Finset.range 10 := Finset.mem_range.mpr (h₂ b (by simp))
      have hab := digitChar_inj_aux a ha b hb h.1
      have htl := ih bs (fun d hd => h₁ d (by simp [hd])) (fun d hd => h₂ d (by simp [hd])) h.2
      rw [hab, htl]

theorem natDecimalChars_inj {m n : Nat} (h : natDecimalChars m = natDecimalChars n) : m = n := by
  by_cases hm : m = 0 <;> by_cases hn : n = 0
  · omega
  · exfalso
    simp only [natDecimalChars, if_pos hm, if_neg hn] at h
    have h2 : (decDigits n).map Nat.digitChar = [Char.ofNat 48] := by
      have := congrArg List.reverse h
      simpa using this.symm
    cases hdig : decDigits n with
    | nil => rw [hdig] at h2; simp at h2
    | cons d ds =>
      rw [hdig] at h2
      have hds : d :: ds = [0] :=
        map_digitChar_inj _ _ (fun x hx => decDigits_lt_ten n x (hdig ▸ hx))
          (by intro x hx; simp at hx; omega) (by simpa using h2)
      have hval := ofDec_decDigits n
      rw [hdig, hds] at hval
      simp [ofDec] at hval
      exact hn hval.symm
  · exfalso
    simp only [natDecimalChars, if_neg hm, if_pos hn] at h
    have h2 : (decDigits m).map Nat.digitChar = [Char.ofNat 48] := by
      have := congrArg List.reverse h
      simpa using this
    cases hdig : decDigits m with
    | nil => rw [hdig] at h2; simp at h2
    | cons d ds =>
      rw [hdig] at h2
      have hds : d :: ds = [0] :=
        map_digitChar_inj _ _ (fun x hx => decDigits_lt_ten m x (hdig ▸ hx))
          (by intro x hx; simp at hx; omega) (by simpa using h2)
      have hval := ofDec_decDigits m
      rw [hdig, hds] at hval
      simp [ofDec] at hval
      exact hm hval.symm
  · simp only [natDecimalChars, if_neg hm, if_neg hn] at h
    have h2 := List.reverse_injective h
    exact decDigits_inj (map_digitChar_inj _ _ (decDigits_lt_ten m) (decDigits_lt_ten n) h2)

theorem natDecimal_inj {m n : Nat} (h : natDecimal m = natDecimal n) : m = n := by
  apply natDecimalChars_inj
  have := congrArg String.data h
  simpa using this

theorem commaRev_chars :
    ∀ (l : List Char) (c : Char), c ∈ commaRev l → c ∈ l ∨ c = Char.ofNat 44
  | [], c, h => by simp [commaRev] at h
  | [a], c, h => by simpa [commaRev] using Or.inl h
  | [a, b], c, h => by simpa [commaRev] using Or.inl h
  | [a, b, e], c, h => by simpa [commaRev] using Or.inl h
  | a :: b :: e :: d :: rest, c, h => by
    simp only [commaRev, List.mem_cons] at h
    rcases h with h | h | h | h | h
    · exact Or.inl (by simp [h])
    · exact Or.inl (by simp [h])
    · exact Or.inl (by simp [h])
    · exact Or.inr h
    · rcases commaRev_chars (d :: rest) c h with h2 | h2
      · exact Or.inl (by simp only [List.mem_cons] at h2 ⊢; tauto)
      · exact Or.inr h2

theorem digitChar_ne_dot : ∀ d ∈ Finset.range 10, Nat.digitChar d ≠ Char.ofNat 46 := by
  decide

theorem commaGroup_no_dot (n : Nat) : Char.ofNat 46 ∉ (commaGroup n).data := by
  intro hmem
  unfold commaGroup at hmem
  simp only [String.data] at hmem
  rw [List.mem_reverse] at hmem
  rcases commaRev_chars _ _ hmem with h | h
  · by_cases hn : n = 0
    · rw [if_pos hn] at h
      simp only [List.mem_singleton] at h
      exact absurd h (by decide)
    · rw [if_neg hn] at h
      simp only [List.mem_map] at h
      obtain ⟨d, hd, hdc⟩ := h
      exact digitChar_ne_dot d (Finset.mem_range.mpr (decDigits_lt_ten n d hd)) hdc
  · exact absurd h (by decide)

theorem oneDecimalStr_shape (size den : Nat) : OneDecimalShape (oneDecimalStr size den) :=
  ⟨commaGroup (roundHalfEvenDiv (10 * size) den / 10),
    roundHalfEvenDiv (10 * size) den % 10, Nat.mod_lt _ (by omega), rfl⟩

end Decimal

namespace ElegyUtils
open Decimal

/-- Shift lemma for the index loop of `_leaf_paths`. -/
theorem leafPathsIdx_shift {α : Type} (p : SPath) :
    ∀ (ys : List (Struct α)),
      (∀ x ∈ ys, ∀ q,
        leafPathsS q x = (leafPathsS [] x).map (fun pr => (q ++ pr.1, pr.2))) →
      ∀ i, leafPathsIdx p i ys = (leafPathsIdx [] i ys).map (fun pr => (p ++ pr.1, pr.2)) := by
  intro ys
  induction ys with
  | nil => intro _ i; simp [leafPathsIdx]
  | cons x xs ihx =>
    intro hys i
    have hx : ∀ q, leafPathsS q x = (leafPathsS [] x).map (fun pr => (q ++ pr.1, pr.2)) :=
      hys x (by simp)
    simp only [leafPathsIdx, List.map_append, List.nil_append]
    rw [hx (p ++ [Seg.idx i]), hx [Seg.idx i],
      ihx (fun y hy => hys y (by simp [hy])) (i + 1), List.map_map]
    congr 1
    apply List.map_congr_left
    intro pr _
    simp

/-- Shift lemma for the dict loop of `_leaf_paths`. -/
theorem leafPathsKey_shift {α : Type} (p : SPath) :
    ∀ (ys : List (String × Struct α)),
      (∀ kv ∈ ys, ∀ q,
        leafPathsS q (Prod.snd kv) =
          (leafPathsS [] (Prod.snd kv)).map (fun pr => (q ++ pr.1, pr.2))) →
      leafPathsKey p ys = (leafPathsKey [] ys).map (fun pr => (p ++ pr.1, pr.2)) := by
  intro ys
  induction ys with
  | nil => intro _; simp [leafPathsKey]
  | cons kv kvs ihx =>
    intro hys
    obtain ⟨k, x⟩ := kv
    have hx : ∀ q, leafPathsS q x = (leafPathsS [] x).map (fun pr => (q ++ pr.1, pr.2)) :=
      hys (k, x) (by simp)
    simp only [leafPathsKey, List.map_append, List.nil_append]
    rw [hx (p ++ [Seg.key k]), hx [Seg.key k],
      ihx (fun y hy => hys y (by simp [hy])), List.map_map]
    congr 1
    apply List.map_congr_left
    intro pr _
    simp

/-- Every path collected by `_leaf_paths` is the accumulator followed by the
path collected from an empty accumulator. -/
theorem leafPathsS_eq {α : Type} :
    ∀ (s : Struct α) (p : SPath),
      leafPathsS p s = (leafPathsS [] s).map (fun pr => (p ++ pr.1, pr.2)) := by
  intro s
  induction s using Struct.inductionOn with
  | hleaf v => intro p; simp [leafPathsS]
  | hlist xs ih => intro p; simp only [leafPathsS]; exact leafPathsIdx_shift p xs ih 0
  | htup xs ih => intro p; simp only [leafPathsS]; exact leafPathsIdx_shift p xs ih 0
  | hdict kvs ih => intro p; simp only [leafPathsS]; exact leafPathsKey_shift p kvs ih

/-- Membership form of `leafPathsS_eq`. -/
theorem mem_leafPathsS {α : Type} {s : Struct α} {p pq : SPath} {v : α} :
    (pq, v) ∈ leafPathsS p s ↔ ∃ p₀, pq = p ++ p₀ ∧ (p₀, v) ∈ leafPathsS [] s := by
  rw [leafPathsS_eq s p]
  simp only [List.mem_map, Prod.mk.injEq, Prod.exists]
  constructor
  · rintro ⟨a, b, hmem, heq, hv⟩
    exact ⟨a, heq.symm, by rwa [hv] at hmem⟩
  · rintro ⟨p₀, heq, hmem⟩
    exact ⟨p₀, v, hmem, heq.symm, rfl⟩

theorem suffixName_inj {name : String} {i j : Nat}
    (h : suffixName name i = suffixName name j) : i = j := by
  unfold suffixName at h
  have hd := congrArg String.data h
  simp only [String.data_append] at hd
  have h2 := List.append_cancel_left hd
  apply natDecimalChars_inj
  simpa [natDecimal] using h2

theorem findSuffixIdx_spec (names : List String) (name : String) :
    ∀ (fuel i : Nat),
      (∃ j, i ≤ j ∧ j < i + fuel ∧ suffixName name j ∉ names) →
      suffixName name (findSuffixIdx names name fuel i) ∉ names ∧
      i ≤ findSuffixIdx names name fuel i ∧
      ∀ j, i ≤ j → j < findSuffixIdx names name fuel i → suffixName name j ∈ names := by
  intro fuel
  induction fuel with
  | zero =>
    intro i hex
    exfalso
    obtain ⟨j, h1, h2, _⟩ := hex
    omega
  | succ fuel ih =>
    intro i hex
    by_cases hmem : suffixName name i ∈ names
    · have hex2 : ∃ j, i + 1 ≤ j ∧ j < (i + 1) + fuel ∧ suffixName name j ∉ names := by
        obtain ⟨j, h1, h2, h3⟩ := hex
        refine ⟨j, ?_, by omega, h3⟩
        rcases Nat.eq_or_lt_of_le h1 with rfl | h
        · exact absurd hmem h3
        · omega
      have hrec := ih (i + 1) hex2
      simp only [findSuffixIdx, if_pos hmem]
      refine ⟨hrec.1, by omega, ?_⟩
      intro j hj1 hj2
      rcases Nat.eq_or_lt_of_le hj1 with rfl | h
      · exact hmem
      · exact hrec.2.2 j (by omega) hj2
    · simp only [findSuffixIdx, if_neg hmem]
      exact ⟨hmem, Nat.le_refl i, fun j h1 h2 => absurd h1 (by omega)⟩

theorem exists_free_suffix (names : List String) (name : String) :
    ∃ j, 1 ≤ j ∧ j < 1 + (names.length + 1) ∧ suffixName name j ∉ names := by
  by_contra hcon
  push_neg at hcon
  have hsub : ((List.range (names.length + 1)).map (fun k => suffixName name (k + 1))) ⊆
      names := by
    intro a ha
    simp only [List.mem_map, List.mem_range] at ha
    obtain ⟨k, hk, rfl⟩ := ha
    exact hcon (k + 1) (by omega) (by omega)
  have hnodup : ((List.range (names.length + 1)).map
      (fun k => suffixName name (k + 1))).Nodup := by
    refine List.Nodup.map ?_ (List.nodup_range _)
    intro a b hab
    have := suffixName_inj hab
    omega
  have hlen := (List.subperm_of_subset hnodup hsub).length_le
  simp only [List.length_map, List.length_range] at hlen
  omega

/-- C4: `get_unique_name` returns an unused candidate unchanged, otherwise
appends the smallest unused suffix `_1`, `_2`, …; it adds the returned name
to the used set; and feeding `["a", "a", "a"]` sequentially through one set
yields `["a", "a_1", "a_2"]`. -/
theorem get_unique_name_spec (names : List String) (name : String) :
    (name ∉ names → get_unique_name names name = (name, name :: names)) ∧
    (name ∈ names →
      ∃ i, 1 ≤ i ∧
        get_unique_name names name = (suffixName name i, suffixName name i :: names) ∧
        suffixName name i ∉ names ∧
        ∀ j, 1 ≤ j → j < i → suffixName name j ∈ names) ∧
    (get_unique_name names name).1 ∈ (get_unique_name names name).2 ∧
    allocate_names [] ["a", "a", "a"] = ["a", "a_1", "a_2"] := by
  refine ⟨?_, ?_, ?_, by decide⟩
  · intro hmem
    simp [get_unique_name, hmem]
  · intro hmem
    have hspec := findSuffixIdx_spec names name (names.length + 1) 1
      (exists_free_suffix names name)
    exact ⟨findSuffixIdx names name (names.length + 1) 1, hspec.2.1,
      by simp [get_unique_name, hmem], hspec.1, hspec.2.2⟩
  · by_cases hmem : name ∈ names <;> simp [get_unique_name, hmem]

/-- Witness for C4 at a concrete used set. -/
theorem get_unique_name_spec_witness :
    (get_unique_name ["a"] "a").1 ∉ ["a"] ∧ get_unique_name [] "b" = ("b", ["b"]) := by
  refine ⟨?_, (get_unique_name_spec [] "b").1 (by decide)⟩
  obtain ⟨i, _, h2, h3, _⟩ := (get_unique_name_spec ["a"] "a").2.1 (by decide)
  rw [h2]
  exact h3

theorem mergeUniqueStep_fold (b : List (String × β)) :
    ∀ (acc : List (String × β)) (names : List String),
      (∀ k ∈ b.map Prod.fst, k ∉ names) → (b.map Prod.fst).Nodup →
      (b.foldl
        (fun (st : List (String × β) × List String) kv =>
          let r := get_unique_name st.2 kv.1
          (dictSet st.1 r.1 kv.2, r.2))
        (acc, names)).1 = b.foldl (fun acc kv => dictSet acc kv.1 kv.2) acc := by
  induction b with
  | nil => intro acc names _ _; rfl
  | cons kv b ih =>
    intro acc names hfresh hnodup
    have hk : kv.1 ∉ names := hfresh kv.1 (by simp)
    have hstep : get_unique_name names kv.1 = (kv.1, kv.1 :: names) := by
      simp [get_unique_name, hk]
    simp only [List.foldl_cons, hstep]
    apply ih
    · intro k hkb
      simp only [List.map_cons, List.nodup_cons] at hnodup
      have hne : k ≠ kv.1 := fun he => hnodup.1 (he ▸ hkb)
      have := hfresh k (by simp [hkb])
      simp [hne, this]
    · simp only [List.map_cons, List.nodup_cons] at hnodup
      exact hnodup.2

theorem mergeUniqueStep_eq_update (a b : List (String × β))
    (hb : (b.map Prod.fst).Nodup) : mergeUniqueStep a b = dictUpdate a b := by
  unfold mergeUniqueStep dictUpdate
  exact mergeUniqueStep_fold b a [] (by simp) hb

/-- C9: when every argument dict has distinct keys (as Python dicts do),
`merge_with_unique_names` is the plain left-to-right dict update
`{**a, **b1, ..., **bn}`: the per-merge used-name set starts empty, so the
unique-name suffixing never fires and later keys silently overwrite. -/
theorem merge_with_unique_names_spec (a : List (String × β))
    (rest : List (List (String × β))) (h : ∀ b ∈ rest, (b.map Prod.fst).Nodup) :
    merge_with_unique_names a rest = rest.foldl (fun acc b => dictUpdate acc b) a := by
  unfold merge_with_unique_names
  induction rest generalizing a with
  | nil => rfl
  | cons b rest ih =>
    simp only [List.foldl_cons]
    rw [mergeUniqueStep_eq_update a b (h b (by simp))]
    exact ih (dictUpdate a b) (fun c hc => h c (by simp [hc]))

/-- Witness for C9: a later dict's colliding key overwrites, no suffixing. -/
theorem merge_with_unique_names_spec_witness :
    merge_with_unique_names [("x", 1), ("y", 2)] [[("x", 3)], [("z", 4)]] =
      [[("x", 3)], [("z", 4)]].foldl (fun acc b => dictUpdate acc b)
        [("x", 1), ("y", 2)] ∧
    merge_with_unique_names [("x", 1), ("y", 2)] [[("x", 3)], [("z", 4)]] =
      [("x", 3), ("y", 2), ("z", 4)] := by
  constructor
  · exact merge_with_unique_names_spec [("x", 1), ("y", 2)] [[("x", 3)], [("z", 4)]]
      (by decide)
  · decide

/-- C5: `format_size` picks its unit by strict magnitude thresholds
(>1e9 GB, >1e6 MB, >1e3 KB, else B), renders GB/MB/KB with one decimal digit
and B as a plain integer, and the two concrete parameter blocks of the spec
are reported as count 5 with "20 B" and as "6.0 KB". -/
theorem format_size_spec (size : Nat) :
    ((formatSizeParts size).2 = "GB" ↔ 1000000000 < size) ∧
    ((formatSizeParts size).2 = "MB" ↔ 1000000 < size ∧ size ≤ 1000000000) ∧
    ((formatSizeParts size).2 = "KB" ↔ 1000 < size ∧ size ≤ 1000000) ∧
    ((formatSizeParts size).2 = "B" ↔ size ≤ 1000) ∧
    ((formatSizeParts size).2 ≠ "B" → OneDecimalShape (formatSizeParts size).1) ∧
    ((formatSizeParts size).2 = "B" → (formatSizeParts size).1 = commaGroup size ∧
      Char.ofNat 46 ∉ (formatSizeParts size).1.data) ∧
    format_size size =
      "[dim]" ++ (formatSizeParts size).1 ++ " " ++ (formatSizeParts size).2 ++ "[/dim]" ∧
    parameters_count [⟨5, 4⟩] = 5 ∧
    format_size (parameters_bytes [⟨5, 4⟩]) = "[dim]20 B[/dim]" ∧
    format_size (parameters_bytes [⟨1500, 4⟩]) = "[dim]6.0 KB[/dim]" := by
  by_cases h1 : 1000000000 < size
  · refine ⟨by simp [formatSizeParts, h1], ?_, ?_, ?_, ?_, ?_, rfl, by decide, by decide,
      by decide⟩
    · simp only [formatSizeParts, if_pos h1]
      constructor
      · intro h; exact absurd h (by decide)
      · intro h; omega
    · simp only [formatSizeParts, if_pos h1]
      constructor
      · intro h; exact absurd h (by decide)
      · intro h; omega
    · simp only [formatSizeParts, if_pos h1]
      constructor
      · intro h; exact absurd h (by decide)
      · intro h; omega
    · intro _
      simp only [formatSizeParts, if_pos h1]
      exact oneDecimalStr_shape size 1000000000
    · intro h
      simp only [formatSizeParts, if_pos h1] at h
      exact absurd h (by decide)
  · by_cases h2 : 1000000 < size
    · refine ⟨?_, by simp [formatSizeParts, h1, h2]; omega, ?_, ?_, ?_, ?_, rfl,
        by decide, by decide, by decide⟩
      · simp only [formatSizeParts, if_neg h1, if_pos h2]
        constructor
        · intro h; exact absurd h (by decide)
        · intro h; omega
      · simp only [formatSizeParts, if_neg h1, if_pos h2]
        constructor
        · intro h; exact absurd h (by decide)
        · intro h; omega
      · simp only [formatSizeParts, if_neg h1, if_pos h2]
        constructor
        · intro h; exact absurd h (by decide)
        · intro h; omega
      · intro _
        simp only [formatSizeParts, if_neg h1, if_pos h2]
        exact oneDecimalStr_shape size 1000000
      · intro h
        simp only [formatSizeParts, if_neg h1, if_pos h2] at h
        exact absurd h (by decide)
    · by_cases h3 : 1000 < size
      · refine ⟨?_, ?_, by simp [formatSizeParts, h1, h2, h3]; omega, ?_, ?_, ?_, rfl,
          by decide, by decide, by decide⟩
        · simp only [formatSizeParts, if_neg h1, if_neg h2, if_pos h3]
          constructor
          · intro h; exact absurd h (by decide)
          · intro h; omega
        · simp only [formatSizeParts, if_neg h1, if_neg h2, if_pos h3]
          constructor
          · intro h; exact absurd h (by decide)
          · intro h; omega
        · simp only [formatSizeParts, if_neg h1, if_neg h2, if_pos h3]
          constructor
          · intro h; exact absurd h (by decide)
          · intro h; omega
        · intro _
          simp only [formatSizeParts, if_neg h1, if_neg h2, if_pos h3]
          exact oneDecimalStr_shape size 1000
        · intro h
          simp only [formatSizeParts, if_neg h1, if_neg h2, if_pos h3] at h
          exact absurd h (by decide)
      · refine ⟨?_, ?_, ?_, by simp [formatSizeParts, h1, h2, h3]; omega, ?_, ?_, rfl,
          by decide, by decide, by decide⟩
        · simp only [formatSizeParts, if_neg h1, if_neg h2, if_neg h3]
          constructor
          · intro h; exact absurd h (by decide)
          · intro h; omega
        · simp only [formatSizeParts, if_neg h1, if_neg h2, if_neg h3]
          constructor
          · intro h; exact absurd h (by decide)
          · intro h; omega
        · simp only [formatSizeParts, if_neg h1, if_neg h2, if_neg h3]
          constructor
          · intro h; exact absurd h (by decide)
          · intro h; omega
        · intro h
          simp only [formatSizeParts, if_neg h1, if_neg h2, if_neg h3] at h
          exact absurd rfl h
        · intro _
          constructor
          · simp [formatSizeParts, h1, h2, h3]
          · simpa [formatSizeParts, h1, h2, h3] using commaGroup_no_dot size

/-- Witness for C5 at 6000 bytes (one-decimal KB) and 20 bytes (integer B). -/
theorem format_size_spec_witness :
    OneDecimalShape (formatSizeParts 6000).1 ∧ (formatSizeParts 20).1 = commaGroup 20 := by
  refine ⟨(format_size_spec 6000).2.2.2.2.1 (by decide), ?_⟩
  exact ((format_size_spec 20).2.2.2.2.2.1 (by decide)).1

theorem descends_cons_iff {α : Type} {s v : Struct α} {k : Seg} {p : SPath} :
    Descends s (k :: p) v ↔ ∃ x, structIndex s k = some x ∧ Descends x p v := by
  constructor
  · intro h
    cases h with
    | list hget hrec => exact ⟨_, hget, hrec⟩
    | tup hget hrec => exact ⟨_, hget, hrec⟩
    | dict hget hrec => exact ⟨_, hget, hrec⟩
  · rintro ⟨x, hidx, hrec⟩
    cases s with
    | leaf _ => simp [structIndex] at hidx
    | list xs =>
      cases k with
      | idx i => exact Descends.list hidx hrec
      | key _ => simp [structIndex] at hidx
    | tup xs =>
      cases k with
      | idx i => exact Descends.tup hidx hrec
      | key _ => simp [structIndex] at hidx
    | dict kvs =>
      cases k with
      | idx _ => simp [structIndex] at hidx
      | key _ => exact Descends.dict hidx hrec

theorem descends_nil_iff {α : Type} {s v : Struct α} : Descends s [] v ↔ v = s := by
  constructor
  · intro h; cases h; rfl
  · rintro rfl; exact Descends.nil _

/-- C10: `get_path_params` is total: it returns exactly the value reached by
indexing with each path segment in order, and `none` (never an exception)
exactly when no such full descent exists. -/
theorem get_path_params_spec {α : Type} (path : SPath) (s : Struct α) :
    (∀ v, get_path_params path s = some v ↔ Descends s path v) ∧
    (get_path_params path s = none ↔ ∀ v, ¬ Descends s path v) := by
  induction path generalizing s with
  | nil =>
    constructor
    · intro v
      simp only [get_path_params, Option.some.injEq, descends_nil_iff]
      exact eq_comm
    · simp only [get_path_params]
      constructor
      · intro h; cases h
      · intro h; exact absurd (Descends.nil s) (h s)
  | cons k path ih =>
    cases hidx : structIndex s k with
    | none =>
      constructor
      · intro v
        simp only [get_path_params, hidx]
        constructor
        · intro h; cases h
        · intro h
          obtain ⟨x, hx, _⟩ := descends_cons_iff.mp h
          rw [hidx] at hx
          cases hx
      · simp only [get_path_params, hidx, true_iff]
        intro v h
        obtain ⟨x, hx, _⟩ := descends_cons_iff.mp h
        rw [hidx] at hx
        cases hx
    | some x =>
      constructor
      · intro v
        simp only [get_path_params, hidx]
        rw [(ih x).1 v, descends_cons_iff]
        constructor
        · intro h; exact ⟨x, hidx, h⟩
        · rintro ⟨y, hy, hrec⟩
          rw [hidx] at hy
          cases hy
          exact hrec
      · simp only [get_path_params, hidx]
        rw [(ih x).2]
        constructor
        · intro h v hv
          obtain ⟨y, hy, hrec⟩ := descends_cons_iff.mp hv
          rw [hidx] at hy
          cases hy
          exact h v hrec
        · intro h v hv
          exact h v (descends_cons_iff.mpr ⟨x, hidx, hv⟩)

/-- Witness for C10: a successful two-segment descent and a failing one. -/
theorem get_path_params_spec_witness :
    Descends (Struct.dict [("a", Struct.list [Struct.leaf 1, Struct.leaf 2])])
      [Seg.key "a", Seg.idx 1] (Struct.leaf 2) ∧
    (∀ v, ¬ Descends (Struct.leaf (5 : Nat)) [Seg.idx 0] v) := by
  constructor
  · exact ((get_path_params_spec [Seg.key "a", Seg.idx 1]
      (Struct.dict [("a", Struct.list [Struct.leaf 1, Struct.leaf 2])])).1
        (Struct.leaf 2)).mp rfl
  · exact (get_path_params_spec [Seg.idx 0] (Struct.leaf (5 : Nat))).2.mp rfl

theorem dictGet_cons {β : Type} (k : String) (v : β) (t : List (String × β))
    (name : String) :
    dictGet ((k, v) :: t) name = if k == name then some v else dictGet t name := by
  simp only [dictGet, List.find?_cons]
  cases h : (k == name) <;> simp [h]

theorem dictGet_filterMap_decl {β : Type} (kwargNames argNames : List String)
    (kw : List (String × β)) (name : String) :
    dictGet (kwargNames.filterMap (fun a =>
      if argNames.contains a then none
      else
        match dictGet kw a with
        | some v => some (a, v)
        | none => none)) name =
    if kwargNames.contains name ∧ ¬argNames.contains name then dictGet kw name
    else none := by
  induction kwargNames with
  | nil => simp [dictGet]
  | cons a rest ih =>
    by_cases hn : name = a
    · subst hn
      by_cases ha : argNames.contains name = true
      · have ha2 : name ∈ argNames := by simpa using ha
        simp only [List.filterMap_cons, if_pos ha]
        rw [ih]
        simp [ha2]
      · have ha2 : name ∉ argNames := by simpa using ha
        cases hkw : dictGet kw name with
        | some v =>
          simp only [List.filterMap_cons, if_neg ha, hkw]
          rw [dictGet_cons]
          simp [ha2, hkw]
        | none =>
          simp only [List.filterMap_cons, if_neg ha, hkw]
          rw [ih]
          by_cases hr : name ∈ rest
          · simp [ha2, hr, hkw]
          · simp [ha2, hr, hkw]
    · have hne : (a == name) = false := by
        simp only [beq_eq_false_iff_ne]
        exact fun he => hn he.symm
      by_cases ha : argNames.contains a = true
      · simp only [List.filterMap_cons, if_pos ha]
        rw [ih]
        simp [hn]
      · cases hkw : dictGet kw a with
        | some v =>
          simp only [List.filterMap_cons, if_neg ha, hkw]
          rw [dictGet_cons, ih]
          simp [hne, hn]
        | none =>
          simp only [List.filterMap_cons, if_neg ha, hkw]
          rw [ih]
          simp [hn]

/-- C1: the call adapter built by `inject_dependencies` forwards positional
arguments untouched, applies the rename map, and then (unless the reference
signature declares a `**kwargs` catch-all, in which case everything is
forwarded) keeps exactly those keyword arguments whose names the signature
declares past the positionally bound prefix; undeclared or positionally bound
names are silently dropped. -/
theorem inject_dependencies_spec {β : Type} (fParams : List SigParam)
    (rename : List (String × String)) (args : List β) (kwargs : List (String × β)) :
    (inject_dependencies fParams rename args kwargs).1 = args ∧
    (fParams.any SigParam.isVarKeyword = true →
      (inject_dependencies fParams rename args kwargs).2 = applyRename rename kwargs) ∧
    (fParams.any SigParam.isVarKeyword = false →
      ∀ name : String,
        dictGet (inject_dependencies fParams rename args kwargs).2 name =
          if ((fParams.drop args.length).map SigParam.name).contains name ∧
              ¬((fParams.take args.length).map SigParam.name).contains name then
            dictGet (applyRename rename kwargs) name
          else none) := by
  refine ⟨rfl, ?_, ?_⟩
  · intro h
    simp [inject_dependencies, h]
  · intro h name
    simp only [inject_dependencies, h, Bool.false_eq_true, if_false]
    exact dictGet_filterMap_decl _ _ _ name

/-- Witness for C1: a rename plus filtering drops the undeclared key `z` and
forwards `a` under its new name `y`. -/
theorem inject_dependencies_spec_witness :
    dictGet (inject_dependencies [⟨"x", false⟩, ⟨"y", false⟩] [("a", "y")]
      [(0 : Nat)] [("a", 5), ("z", 6)]).2 "y" = some 5 ∧
    dictGet (inject_dependencies [⟨"x", false⟩, ⟨"y", false⟩] [("a", "y")]
      [(0 : Nat)] [("a", 5), ("z", 6)]).2 "z" = none := by
  have h := (inject_dependencies_spec [⟨"x", false⟩, ⟨"y", false⟩] [("a", "y")]
    [(0 : Nat)] [("a", 5), ("z", 6)]).2.2 (by decide)
  exact ⟨(h "y").trans (by decide), (h "z").trans (by decide)⟩

theorem leafAt_leaf_iff {α : Type} {w v : α} {p : SPath} :
    LeafAt (Struct.leaf w) p v ↔ p = [] ∧ v = w := by
  constructor
  · intro h; cases h; exact ⟨rfl, rfl⟩
  · rintro ⟨rfl, rfl⟩; exact LeafAt.leaf v

theorem leafAt_list_iff {α : Type} {xs : List (Struct α)} {p : SPath} {v : α} :
    LeafAt (Struct.list xs) p v ↔
      ∃ i x p₀, xs.get? i = some x ∧ p = Seg.idx i :: p₀ ∧ LeafAt x p₀ v := by
  constructor
  · intro h
    cases h with
    | list hget hrec => exact ⟨_, _, _, hget, rfl, hrec⟩
  · rintro ⟨i, x, p₀, hget, rfl, hrec⟩
    exact LeafAt.list hget hrec

theorem leafAt_tup_iff {α : Type} {xs : List (Struct α)} {p : SPath} {v : α} :
    LeafAt (Struct.tup xs) p v ↔
      ∃ i x p₀, xs.get? i = some x ∧ p = Seg.idx i :: p₀ ∧ LeafAt x p₀ v := by
  constructor
  · intro h
    cases h with
    | tup hget hrec => exact ⟨_, _, _, hget, rfl, hrec⟩
  · rintro ⟨i, x, p₀, hget, rfl, hrec⟩
    exact LeafAt.tup hget hrec

theorem leafAt_dict_iff {α : Type} {kvs : List (String × Struct α)} {p : SPath} {v : α} :
    LeafAt (Struct.dict kvs) p v ↔
      ∃ k x p₀, (k, x) ∈ kvs ∧ p = Seg.key k :: p₀ ∧ LeafAt x p₀ v := by
  constructor
  · intro h
    cases h with
    | dict hmem hrec => exact ⟨_, _, _, hmem, rfl, hrec⟩
  · rintro ⟨k, x, p₀, hmem, rfl, hrec⟩
    exact LeafAt.dict hmem hrec

theorem mem_leafPathsIdx {α : Type} {xs : List (Struct α)} :
    ∀ (i : Nat) (p : SPath) (v : α),
      (p, v) ∈ leafPathsIdx [] i xs ↔
        ∃ j x p₀, xs.get? j = some x ∧ p = Seg.idx (i + j) :: p₀ ∧
          (p₀, v) ∈ leafPathsS [] x := by
  induction xs with
  | nil =>
    intro i p v
    simp [leafPathsIdx]
  | cons x xs ih =>
    intro i p v
    simp only [leafPathsIdx, List.mem_append, List.nil_append]
    constructor
    · intro h
      rcases h with h | h
      · obtain ⟨p₀, rfl, hmem⟩ := mem_leafPathsS.mp h
        exact ⟨0, x, p₀, rfl, by simp, hmem⟩
      · obtain ⟨j, y, p₀, hget, rfl, hmem⟩ := (ih (i + 1) _ v).mp h
        exact ⟨j + 1, y, p₀, by simpa using hget, by rw [show i + 1 + j = i + (j + 1) by omega], hmem⟩
    · rintro ⟨j, y, p₀, hget, rfl, hmem⟩
      match j with
      | 0 =>
        left
        simp only [List.get?_cons_zero, Option.some.injEq] at hget
        subst hget
        exact mem_leafPathsS.mpr ⟨p₀, by simp, hmem⟩
      | j + 1 =>
        right
        exact (ih (i + 1) _ v).mpr ⟨j, y, p₀, by simpa using hget,
          by rw [show i + (j + 1) = i + 1 + j by omega], hmem⟩

theorem mem_leafPathsKey {α : Type} {kvs : List (String × Struct α)} :
    ∀ (p : SPath) (v : α),
      (p, v) ∈ leafPathsKey [] kvs ↔
        ∃ k x p₀, (k, x) ∈ kvs ∧ p = Seg.key k :: p₀ ∧ (p₀, v) ∈ leafPathsS [] x := by
  induction kvs with
  | nil =>
    intro p v
    simp [leafPathsKey]
  | cons kv kvs ih =>
    obtain ⟨k, x⟩ := kv
    intro p v
    simp only [leafPathsKey, List.mem_append, List.nil_append]
    constructor
    · intro h
      rcases h with h | h
      · obtain ⟨p₀, rfl, hmem⟩ := mem_leafPathsS.mp h
        exact ⟨k, x, p₀, by simp, by simp, hmem⟩
      · obtain ⟨k₂, y, p₀, hkv, rfl, hmem⟩ := (ih _ v).mp h
        exact ⟨k₂, y, p₀, by simp [hkv], rfl, hmem⟩
    · rintro ⟨k₂, y, p₀, hkv, rfl, hmem⟩
      simp only [List.mem_cons, Prod.mk.injEq] at hkv
      rcases hkv with ⟨rfl, rfl⟩ | hkv
      · exact Or.inl (mem_leafPathsS.mpr ⟨p₀, by simp, hmem⟩)
      · exact Or.inr ((ih _ v).mpr ⟨k₂, y, p₀, hkv, rfl, hmem⟩)

theorem mem_leaf_paths_iff_leafAt {α : Type} (s : Struct α) :
    ∀ (p : SPath) (v : α), (p, v) ∈ leaf_paths s ↔ LeafAt s p v := by
  induction s using Struct.inductionOn with
  | hleaf w =>
    intro p v
    simp only [leaf_paths, leafPathsS, List.mem_singleton, Prod.mk.injEq, leafAt_leaf_iff]
  | hlist xs ih =>
    intro p v
    simp only [leaf_paths, leafPathsS, leafAt_list_iff]
    rw [mem_leafPathsIdx 0]
    constructor
    · rintro ⟨j, x, p₀, hget, rfl, hmem⟩
      have hx : x ∈ xs := List.get?_mem hget
      exact ⟨j, x, p₀, hget, by simp, (ih x hx p₀ v).mp hmem⟩
    · rintro ⟨j, x, p₀, hget, rfl, hrec⟩
      have hx : x ∈ xs := List.get?_mem hget
      exact ⟨j, x, p₀, hget, by simp, (ih x hx p₀ v).mpr hrec⟩
  | htup xs ih =>
    intro p v
    simp only [leaf_paths, leafPathsS, leafAt_tup_iff]
    rw [mem_leafPathsIdx 0]
    constructor
    · rintro ⟨j, x, p₀, hget, rfl, hmem⟩
      have hx : x ∈ xs := List.get?_mem hget
      exact ⟨j, x, p₀, hget, by simp, (ih x hx p₀ v).mp hmem⟩
    · rintro ⟨j, x, p₀, hget, rfl, hrec⟩
      have hx : x ∈ xs := List.get?_mem hget
      exact ⟨j, x, p₀, hget, by simp, (ih x hx p₀ v).mpr hrec⟩
  | hdict kvs ih =>
    intro p v
    simp only [leaf_paths, leafPathsS, leafAt_dict_iff]
    rw [mem_leafPathsKey]
    constructor
    · rintro ⟨k, x, p₀, hkv, rfl, hmem⟩
      exact ⟨k, x, p₀, hkv, rfl, (ih (k, x) hkv p₀ v).mp hmem⟩
    · rintro ⟨k, x, p₀, hkv, rfl, hrec⟩
      exact ⟨k, x, p₀, hkv, rfl, (ih (k, x) hkv p₀ v).mpr hrec⟩

theorem flattenNames_shift {α : Type} :
    ∀ (s : Struct α) (p : SPath),
      flattenNamesS p s = (flattenNamesS [] s).map (fun pr => (p ++ pr.1, pr.2)) := by
  intro s
  induction s using Struct.inductionOn with
  | hleaf v => intro p; simp [flattenNamesS]
  | hlist xs ih =>
    intro p
    simp only [flattenNamesS]
    induction xs with
    | nil => simp [flattenNamesL]
    | cons x rest ihx =>
      have hx := ih x (by simp)
      simp only [flattenNamesL, List.map_append]
      rw [hx p, ihx (fun y hy => ih y (by simp [hy]))]
  | htup xs ih =>
    intro p
    simp only [flattenNamesS]
    induction xs with
    | nil => simp [flattenNamesL]
    | cons x rest ihx =>
      have hx := ih x (by simp)
      simp only [flattenNamesL, List.map_append]
      rw [hx p, ihx (fun y hy => ih y (by simp [hy]))]
  | hdict kvs ih =>
    intro p
    simp only [flattenNamesS]
    induction kvs with
    | nil => simp [flattenNamesD]
    | cons kv rest ihx =>
      obtain ⟨k, x⟩ := kv
      have hx := ih (k, x) (by simp)
      simp only [flattenNamesD, List.map_append, List.nil_append]
      rw [hx (p ++ [Seg.key k]), hx [Seg.key k],
        ihx (fun y hy => ih y (by simp [hy])), List.map_map]
      congr 1
      apply List.map_congr_left
      intro pr _
      simp

theorem flattenNamesS_proj {α : Type} :
    ∀ (s : Struct α),
      flattenNamesS ([] : SPath) s =
        (leafPathsS [] s).map (fun pr => (pr.1.filter Seg.isKey, pr.2)) := by
  intro s
  induction s using Struct.inductionOn with
  | hleaf v => simp [flattenNamesS, leafPathsS]
  | hlist xs ih =>
    simp only [flattenNamesS, leafPathsS]
    have aux : ∀ (ys : List (Struct α)),
        (∀ x ∈ ys, flattenNamesS ([] : SPath) x =
          (leafPathsS [] x).map (fun pr => (pr.1.filter Seg.isKey, pr.2))) →
        ∀ i, flattenNamesL ([] : SPath) ys =
          (leafPathsIdx [] i ys).map (fun pr => (pr.1.filter Seg.isKey, pr.2)) := by
      intro ys hys
      induction ys with
      | nil => intro i; simp [flattenNamesL, leafPathsIdx]
      | cons x rest ihx =>
        intro i
        simp only [flattenNamesL, leafPathsIdx, List.map_append, List.nil_append]
        rw [leafPathsS_eq x [Seg.idx i], List.map_map,
          ihx (fun y hy => hys y (by simp [hy])) (i + 1), hys x (by simp)]
        congr 1
    exact aux xs ih 0
  | htup xs ih =>
    simp only [flattenNamesS, leafPathsS]
    have aux : ∀ (ys : List (Struct α)),
        (∀ x ∈ ys, flattenNamesS ([] : SPath) x =
          (leafPathsS [] x).map (fun pr => (pr.1.filter Seg.isKey, pr.2))) →
        ∀ i, flattenNamesL ([] : SPath) ys =
          (leafPathsIdx [] i ys).map (fun pr => (pr.1.filter Seg.isKey, pr.2)) := by
      intro ys hys
      induction ys with
      | nil => intro i; simp [flattenNamesL, leafPathsIdx]
      | cons x rest ihx =>
        intro i
        simp only [flattenNamesL, leafPathsIdx, List.map_append, List.nil_append]
        rw [leafPathsS_eq x [Seg.idx i], List.map_map,
          ihx (fun y hy => hys y (by simp [hy])) (i + 1), hys x (by simp)]
        congr 1
    exact aux xs ih 0
  | hdict kvs ih =>
    simp only [flattenNamesS, leafPathsS]
    induction kvs with
    | nil => simp [flattenNamesD, leafPathsKey]
    | cons kv rest ihx =>
      obtain ⟨k, x⟩ := kv
      simp only [flattenNamesD, leafPathsKey, List.map_append, List.nil_append]
      rw [leafPathsS_eq x [Seg.key k], List.map_map, flattenNames_shift x [Seg.key k],
        ihx (fun y hy => ih y (by simp [hy])), ih (k, x) (by simp), List.map_map]
      congr 1

/-- C3 (amended): `leaf_paths` assigns one segment per nesting level — the
integer index for a list/tuple element, the key for a dict entry — while
`flatten_names` keeps only the dict-key segments of each leaf path, skipping
list/tuple indices, and joins them with "/". -/
theorem path_segments_spec {α : Type} (s : Struct α) :
    (∀ p v, (p, v) ∈ leaf_paths s ↔ LeafAt s p v) ∧
    flatten_names s = (leaf_paths s).map
      (fun pr => (String.intercalate "/" ((pr.1.filter Seg.isKey).map segStr), pr.2)) := by
  refine ⟨mem_leaf_paths_iff_leafAt s, ?_⟩
  unfold flatten_names leaf_paths
  rw [flattenNamesS_proj, List.map_map]
  rfl

/-- Counterexample for C3 as stated: `flatten_names` drops list/tuple index
segments, so both leaves of the one-level list `[10, 20]` serialize to the
empty display path instead of "0" and "1". -/
theorem path_segments_counterexample :
    flatten_names (Struct.list [Struct.leaf (10 : Nat), Struct.leaf 20]) =
      [("", 10), ("", 20)] ∧
    leaf_paths (Struct.list [Struct.leaf (10 : Nat), Struct.leaf 20]) =
      [([Seg.idx 0], 10), ([Seg.idx 1], 20)] ∧
    ("" : String) ≠ "0" := ⟨by decide, by decide, by decide⟩

theorem hasDupKeys_eq_false_iff : ∀ l : List String, hasDupKeys l = false ↔ l.Nodup := by
  intro l
  induction l with
  | nil => simp [hasDupKeys]
  | cons k ks ih => simp [hasDupKeys, ih]

theorem nodupKeysL_mem {α : Type} {xs : List (Struct α)} (h : nodupKeysL xs = true) :
    ∀ x ∈ xs, nodupKeysS x = true := by
  induction xs with
  | nil => simp
  | cons y ys ih =>
    simp only [nodupKeysL, Bool.and_eq_true] at h
    intro x hx
    rcases List.mem_cons.mp hx with rfl | hx
    · exact h.1
    · exact ih h.2 x hx

theorem nodupKeysD_mem {α : Type} {kvs : List (String × Struct α)}
    (h : nodupKeysD kvs = true) : ∀ kv ∈ kvs, nodupKeysS (Prod.snd kv) = true := by
  induction kvs with
  | nil => simp
  | cons kv₀ rest ih =>
    obtain ⟨k₀, x₀⟩ := kv₀
    simp only [nodupKeysD, Bool.and_eq_true] at h
    intro kv hkv
    rcases List.mem_cons.mp hkv with rfl | hkv
    · exact h.1
    · exact ih h.2 kv hkv

theorem dictGet_eq_none_iff {β : Type} (d : List (String × β)) (k : String) :
    dictGet d k = none ↔ containsKey d k = false := by
  induction d with
  | nil => simp [dictGet, containsKey]
  | cons kv rest ih =>
    obtain ⟨k₀, v₀⟩ := kv
    rw [dictGet_cons]
    cases h : (k₀ == k) with
    | true => simp [containsKey, h]
    | false => simp [containsKey, h, ih]

theorem dictGet_mem {β : Type} {d : List (String × β)} {k : String} {v : β}
    (h : dictGet d k = some v) : (k, v) ∈ d := by
  induction d with
  | nil => simp [dictGet] at h
  | cons kv rest ih =>
    obtain ⟨k₀, v₀⟩ := kv
    rw [dictGet_cons] at h
    by_cases hk : (k₀ == k) = true
    · rw [if_pos hk] at h
      cases h
      have : k₀ = k := by simpa using hk
      subst this
      exact List.mem_cons_self _ _
    · rw [if_neg hk] at h
      exact List.mem_cons_of_mem _ (ih h)

theorem mem_dictGet {β : Type} {d : List (String × β)} {k : String} {v : β}
    (hnd : (d.map Prod.fst).Nodup) (h : (k, v) ∈ d) : dictGet d k = some v := by
  induction d with
  | nil => simp at h
  | cons kv rest ih =>
    obtain ⟨k₀, v₀⟩ := kv
    simp only [List.map_cons, List.nodup_cons] at hnd
    rcases List.mem_cons.mp h with heq | hmem
    · cases heq
      rw [dictGet_cons, if_pos (by simp)]
    · have hk : k ≠ k₀ := by
        intro he
        subst he
        exact hnd.1 (List.mem_map.mpr ⟨(k, v), hmem, rfl⟩)
      rw [dictGet_cons, if_neg (by simpa using fun he => hk he.symm)]
      exact ih hnd.2 hmem

theorem dictGet_append {β : Type} (xs ys : List (String × β)) (k : String) :
    dictGet (xs ++ ys) k =
      match dictGet xs k with
      | some v => some v
      | none => dictGet ys k := by
  induction xs with
  | nil => simp [dictGet]
  | cons kv rest ih =>
    obtain ⟨k₀, v₀⟩ := kv
    rw [List.cons_append, dictGet_cons, dictGet_cons]
    by_cases hk : (k₀ == k) = true
    · rw [if_pos hk, if_pos hk]
    · rw [if_neg hk, if_neg hk, ih]

theorem containsKey_eq {β : Type} (d : List (String × β)) (k : String) :
    containsKey d k = (d.map Prod.fst).contains k := by
  induction d with
  | nil => rfl
  | cons kv rest ih =>
    obtain ⟨k₀, v₀⟩ := kv
    simp only [containsKey, List.any_cons, List.map_cons, List.contains_cons]
    rw [containsKey] at ih
    rw [ih]
    by_cases hk : k₀ = k
    · subst hk
      simp
    · have h1 : (k₀ == k) = false := by simpa using hk
      have h2 : (k == k₀) = false := by simpa using fun he => hk he.symm
      simp [h1, h2]

theorem dictGet_filter_not_contains {β : Type} (a : List (String × β))
    (b : List (String × β)) (k : String) :
    (containsKey a k = false →
      dictGet (b.filter (fun kv => !(containsKey a kv.1))) k = dictGet b k) ∧
    (containsKey a k = true →
      dictGet (b.filter (fun kv => !(containsKey a kv.1))) k = none) := by
  induction b with
  | nil => simp [dictGet]
  | cons kv rest ih =>
    obtain ⟨k₀, v₀⟩ := kv
    by_cases hk : (k₀ == k) = true
    · have hkk : k₀ = k := by simpa using hk
      subst hkk
      constructor
      · intro hc
        rw [List.filter_cons, if_pos (by simpa using hc)]
        rw [dictGet_cons, dictGet_cons, if_pos (by simp), if_pos (by simp)]
      · intro hc
        rw [List.filter_cons, if_neg (by simpa using hc)]
        exact ih.2 hc
    · constructor
      · intro hc
        rw [List.filter_cons]
        by_cases hkeep : containsKey a k₀ = false
        · rw [if_pos (by simpa using hkeep), dictGet_cons, dictGet_cons,
            if_neg hk, if_neg hk]
          exact ih.1 hc
        · rw [if_neg (by simpa using hkeep), dictGet_cons, if_neg hk]
          exact ih.1 hc
      · intro hc
        rw [List.filter_cons]
        by_cases hkeep : containsKey a k₀ = false
        · rw [if_pos (by simpa using hkeep), dictGet_cons, if_neg hk]
          exact ih.2 hc
        · rw [if_neg (by simpa using hkeep)]
          exact ih.2 hc

theorem mergeDictEntries_keys {α : Type} :
    ∀ (a b L : List (String × Struct α)), mergeDictEntries a b = .ok L →
      L.map Prod.fst = a.map Prod.fst := by
  intro a
  induction a with
  | nil =>
    intro b L h
    cases h
    rfl
  | cons kv rest ih =>
    obtain ⟨k, v⟩ := kv
    intro b L h
    cases hb : dictGet b k with
    | none =>
      cases hrec : mergeDictEntries rest b with
      | ok entries =>
        simp only [mergeDictEntries, hb, hrec] at h
        cases h
        simp [ih b entries hrec]
      | error e =>
        simp only [mergeDictEntries, hb, hrec] at h
        cases h
    | some w =>
      cases hm : merge_params v w with
      | ok vr =>
        cases hrec : mergeDictEntries rest b with
        | ok entries =>
          simp only [mergeDictEntries, hb, hm, hrec] at h
          cases h
          simp [ih b entries hrec]
        | error e =>
          simp only [mergeDictEntries, hb, hm, hrec] at h
          cases h
      | error e =>
        simp only [mergeDictEntries, hb, hm] at h
        cases h

theorem mergeDictEntries_lookup {α : Type} :
    ∀ (a b L : List (String × Struct α)), (a.map Prod.fst).Nodup →
      mergeDictEntries a b = .ok L → ∀ k : String,
      (dictGet a k = none → dictGet L k = none) ∧
      (∀ va, dictGet a k = some va →
        (dictGet b k = none → dictGet L k = some va) ∧
        (∀ w, dictGet b k = some w → ∃ vr, merge_params va w = .ok vr ∧
          dictGet L k = some vr)) := by
  intro a
  induction a with
  | nil =>
    intro b L _ h k
    cases h
    exact ⟨fun _ => rfl, fun va hva => by simp [dictGet] at hva⟩
  | cons kv rest ih =>
    obtain ⟨k₀, v₀⟩ := kv
    intro b L hnd h k
    simp only [List.map_cons, List.nodup_cons] at hnd
    cases hb : dictGet b k₀ with
    | none =>
      cases hrec : mergeDictEntries rest b with
      | error e =>
        simp only [mergeDictEntries, hb, hrec] at h
        cases h
      | ok entries =>
        simp only [mergeDictEntries, hb, hrec] at h
        cases h
        have hrest := ih b entries hnd.2 hrec k
        by_cases hk : (k₀ == k) = true
        · have hkk : k₀ = k := by simpa using hk
          subst hkk
          refine ⟨?_, ?_⟩
          · intro hnone
            rw [dictGet_cons, if_pos (by simp)] at hnone
            cases hnone
          · intro va hva
            rw [dictGet_cons, if_pos (by simp)] at hva
            cases hva
            refine ⟨fun _ => by rw [dictGet_cons, if_pos (by simp)], ?_⟩
            intro w hw
            rw [hb] at hw
            cases hw
        · refine ⟨?_, ?_⟩
          · intro hnone
            rw [dictGet_cons, if_neg hk] at hnone ⊢
            exact hrest.1 hnone
          · intro va hva
            rw [dictGet_cons, if_neg hk] at hva
            have h2 := hrest.2 va hva
            refine ⟨?_, ?_⟩
            · intro hbnone
              rw [dictGet_cons, if_neg hk]
              exact h2.1 hbnone
            · intro w hw
              obtain ⟨vr, hm, hl⟩ := h2.2 w hw
              exact ⟨vr, hm, by rw [dictGet_cons, if_neg hk]; exact hl⟩
    | some w =>
      cases hm : merge_params v₀ w with
      | error e =>
        simp only [mergeDictEntries, hb, hm] at h
        cases h
      | ok vr =>
        cases hrec : mergeDictEntries rest b with
        | error e =>
          simp only [mergeDictEntries, hb, hm, hrec] at h
          cases h
        | ok entries =>
          simp only [mergeDictEntries, hb, hm, hrec] at h
          cases h
          have hrest := ih b entries hnd.2 hrec k
          by_cases hk : (k₀ == k) = true
          · have hkk : k₀ = k := by simpa using hk
            subst hkk
            refine ⟨?_, ?_⟩
            · intro hnone
              rw [dictGet_cons, if_pos (by simp)] at hnone
              cases hnone
            · intro va hva
              rw [dictGet_cons, if_pos (by simp)] at hva
              cases hva
              constructor
              · intro hc
                rw [hb] at hc
                cases hc
              · intro w₂ hw₂
                rw [hb] at hw₂
                cases hw₂
                exact ⟨vr, hm, by rw [dictGet_cons, if_pos (by simp)]⟩
          · refine ⟨?_, ?_⟩
            · intro hnone
              rw [dictGet_cons, if_neg hk] at hnone ⊢
              exact hrest.1 hnone
            · intro va hva
              rw [dictGet_cons, if_neg hk] at hva
              have h2 := hrest.2 va hva
              refine ⟨?_, ?_⟩
              · intro hbnone
                rw [dictGet_cons, if_neg hk]
                exact h2.1 hbnone
              · intro w₂ hw₂
                obtain ⟨vr₂, hm₂, hl⟩ := h2.2 w₂ hw₂
                exact ⟨vr₂, hm₂, by rw [dictGet_cons, if_neg hk]; exact hl⟩

theorem mergeDictEntries_error_iff {α : Type} :
    ∀ (a b : List (String × Struct α)), (a.map Prod.fst).Nodup →
      ((∃ e, mergeDictEntries a b = .error e) ↔
        ∃ k va w, dictGet a k = some va ∧ dictGet b k = some w ∧
          ∃ e, merge_params va w = .error e) := by
  intro a
  induction a with
  | nil =>
    intro b _
    constructor
    · rintro ⟨e, he⟩
      cases he
    · rintro ⟨k, va, w, hva, _, _⟩
      simp [dictGet] at hva
  | cons kv rest ih =>
    obtain ⟨k₀, v₀⟩ := kv
    intro b hnd
    simp only [List.map_cons, List.nodup_cons] at hnd
    have hrest := ih b hnd.2
    have hk₀rest : dictGet rest k₀ = none := by
      rw [dictGet_eq_none_iff, containsKey_eq]
      simpa using hnd.1
    constructor
    · rintro ⟨e, he⟩
      cases hb : dictGet b k₀ with
      | none =>
        cases hrec : mergeDictEntries rest b with
        | ok entries =>
          simp only [mergeDictEntries, hb, hrec] at he
          cases he
        | error e₂ =>
          obtain ⟨k, va, w, hva, hw, hm⟩ := hrest.mp ⟨e₂, hrec⟩
          refine ⟨k, va, w, ?_, hw, hm⟩
          rw [dictGet_cons]
          by_cases hkk : (k₀ == k) = true
          · have : k₀ = k := by simpa using hkk
            subst this
            rw [hk₀rest] at hva
            cases hva
          · rw [if_neg hkk]
            exact hva
      | some w =>
        cases hm : merge_params v₀ w with
        | ok vr =>
          cases hrec : mergeDictEntries rest b with
          | ok entries =>
            simp only [mergeDictEntries, hb, hm, hrec] at he
            cases he
          | error e₂ =>
            obtain ⟨k, va, w₂, hva, hw₂, hm₂⟩ := hrest.mp ⟨e₂, hrec⟩
            refine ⟨k, va, w₂, ?_, hw₂, hm₂⟩
            rw [dictGet_cons]
            by_cases hkk : (k₀ == k) = true
            · have : k₀ = k := by simpa using hkk
              subst this
              rw [hk₀rest] at hva
              cases hva
            · rw [if_neg hkk]
              exact hva
        | error e₂ =>
          exact ⟨k₀, v₀, w, by rw [dictGet_cons, if_pos (by simp)], hb, e₂, hm⟩
    · rintro ⟨k, va, w, hva, hw, e, hm⟩
      rw [dictGet_cons] at hva
      by_cases hkk : (k₀ == k) = true
      · have : k₀ = k := by simpa using hkk
        subst this
        rw [if_pos (by simp)] at hva
        cases hva
        refine ⟨e, ?_⟩
        simp only [mergeDictEntries, hw, hm]
      · rw [if_neg hkk] at hva
        obtain ⟨e₂, he₂⟩ := hrest.mpr ⟨k, va, w, hva, hw, e, hm⟩
        cases hb : dictGet b k₀ with
        | none =>
          refine ⟨e₂, ?_⟩
          simp only [mergeDictEntries, hb, he₂]
        | some w₀ =>
          cases hm₀ : merge_params v₀ w₀ with
          | ok vr =>
            refine ⟨e₂, ?_⟩
            simp only [mergeDictEntries, hb, hm₀, he₂]
          | error e₀ =>
            refine ⟨e₀, ?_⟩
            simp only [mergeDictEntries, hb, hm₀]

theorem mergeZip_error_iff {α : Type} :
    ∀ (as bs : List (Struct α)), as.length = bs.length →
      ((∃ e, mergeZip as bs = .error e) ↔
        ∃ i x y, as.get? i = some x ∧ bs.get? i = some y ∧
          ∃ e, merge_params x y = .error e) := by
  intro as
  induction as with
  | nil =>
    intro bs hlen
    cases bs with
    | nil =>
      constructor
      · rintro ⟨e, he⟩
        cases he
      · rintro ⟨i, x, y, hx, _, _⟩
        simp at hx
    | cons b bs => simp at hlen
  | cons a as ih =>
    intro bs hlen
    cases bs with
    | nil => simp at hlen
    | cons b bs =>
      have hlen2 : as.length = bs.length := by simpa using hlen
      have hrest := ih bs hlen2
      constructor
      · rintro ⟨e, he⟩
        cases hm : merge_params a b with
        | error e₂ => exact ⟨0, a, b, rfl, rfl, e₂, hm⟩
        | ok z =>
          cases hrec : mergeZip as bs with
          | ok zs =>
            simp only [mergeZip, hm, hrec] at he
            cases he
          | error e₂ =>
            obtain ⟨i, x, y, hx, hy, hm₂⟩ := hrest.mp ⟨e₂, hrec⟩
            exact ⟨i + 1, x, y, by simpa using hx, by simpa using hy, hm₂⟩
      · rintro ⟨i, x, y, hx, hy, e, hm⟩
        match i with
        | 0 =>
          simp only [List.get?_cons_zero, Option.some.injEq] at hx hy
          subst hx
          subst hy
          refine ⟨e, ?_⟩
          simp only [mergeZip, hm]
        | i + 1 =>
          simp only [List.get?_cons_succ] at hx hy
          obtain ⟨e₂, he₂⟩ := hrest.mpr ⟨i, x, y, hx, hy, e, hm⟩
          cases hm₀ : merge_params a b with
          | error e₀ =>
            refine ⟨e₀, ?_⟩
            simp only [mergeZip, hm₀]
          | ok z =>
            refine ⟨e₂, ?_⟩
            simp only [mergeZip, hm₀, he₂]

theorem mergeZip_ok {α : Type} :
    ∀ (as bs zs : List (Struct α)), mergeZip as bs = .ok zs → as.length = bs.length →
      zs.length = as.length ∧
      ∀ i x y z, as.get? i = some x → bs.get? i = some y → zs.get? i = some z →
        merge_params x y = .ok z := by
  intro as
  induction as with
  | nil =>
    intro bs zs h hlen
    cases bs with
    | nil =>
      cases h
      exact ⟨rfl, fun i x y z hx => by simp at hx⟩
    | cons b bs => simp at hlen
  | cons a as ih =>
    intro bs zs h hlen
    cases bs with
    | nil => simp at hlen
    | cons b bs =>
      have hlen2 : as.length = bs.length := by simpa using hlen
      cases hm : merge_params a b with
      | error e =>
        simp only [mergeZip, hm] at h
        cases h
      | ok z₀ =>
        cases hrec : mergeZip as bs with
        | error e =>
          simp only [mergeZip, hm, hrec] at h
          cases h
        | ok zs₀ =>
          simp only [mergeZip, hm, hrec] at h
          cases h
          obtain ⟨hlen3, hpt⟩ := ih bs zs₀ hrec hlen2
          refine ⟨by simpa using hlen3, ?_⟩
          intro i x y z hx hy hz
          match i with
          | 0 =>
            simp only [List.get?_cons_zero, Option.some.injEq] at hx hy hz
            subst hx
            subst hy
            subst hz
            exact hm
          | i + 1 =>
            simp only [List.get?_cons_succ] at hx hy hz
            exact hpt i x y z hx hy hz

theorem conflict_list_iff {α : Type} {as bs : List (Struct α)} :
    (∃ p, ConflictAt p (.list as) (.list bs)) ↔
      as.length ≠ bs.length ∨
        ∃ i x y, as.get? i = some x ∧ bs.get? i = some y ∧ ∃ p, ConflictAt p x y := by
  constructor
  · rintro ⟨p, h⟩
    cases h with
    | mismatch hr => simp [sameMergeRule] at hr
    | listLen hl => exact Or.inl hl
    | listStep hx hy hc => exact Or.inr ⟨_, _, _, hx, hy, _, hc⟩
  · rintro (hl | ⟨i, x, y, hx, hy, p, hc⟩)
    · exact ⟨[], ConflictAt.listLen hl⟩
    · exact ⟨Seg.idx i :: p, ConflictAt.listStep hx hy hc⟩

theorem conflict_tup_iff {α : Type} {as bs : List (Struct α)} :
    (∃ p, ConflictAt p (.tup as) (.tup bs)) ↔
      as.length ≠ bs.length ∨
        ∃ i x y, as.get? i = some x ∧ bs.get? i = some y ∧ ∃ p, ConflictAt p x y := by
  constructor
  · rintro ⟨p, h⟩
    cases h with
    | mismatch hr => simp [sameMergeRule] at hr
    | tupLen hl => exact Or.inl hl
    | tupStep hx hy hc => exact Or.inr ⟨_, _, _, hx, hy, _, hc⟩
  · rintro (hl | ⟨i, x, y, hx, hy, p, hc⟩)
    · exact ⟨[], ConflictAt.tupLen hl⟩
    · exact ⟨Seg.idx i :: p, ConflictAt.tupStep hx hy hc⟩

theorem conflict_dict_iff {α : Type} {a b : List (String × Struct α)} :
    (∃ p, ConflictAt p (.dict a) (.dict b)) ↔
      ∃ k va vb, dictGet a k = some va ∧ dictGet b k = some vb ∧
        ∃ p, ConflictAt p va vb := by
  constructor
  · rintro ⟨p, h⟩
    cases h with
    | mismatch hr => simp [sameMergeRule] at hr
    | dictStep hx hy hc => exact ⟨_, _, _, hx, hy, _, hc⟩
  · rintro ⟨k, va, vb, hx, hy, p, hc⟩
    exact ⟨Seg.key k :: p, ConflictAt.dictStep hx hy hc⟩

theorem conflict_of_no_rule {α : Type} {a b : Struct α}
    (h : sameMergeRule a b = false) : ∃ p, ConflictAt p a b :=
  ⟨[], ConflictAt.mismatch h⟩

theorem merge_params_no_rule {α : Type} {a b : Struct α} (h : sameMergeRule a b = false) :
    merge_params a b = .error "Cannot merge structs" := by
  cases a <;> cases b <;> first
    | rfl
    | simp [sameMergeRule] at h

theorem merge_spec_of_no_rule {α : Type} {a b : Struct α} (h : sameMergeRule a b = false) :
    ((∃ e, merge_params a b = .error e) ↔ ∃ p, ConflictAt p a b) ∧
    (∀ r, merge_params a b = .ok r → MergedTree a b r) := by
  have hm := merge_params_no_rule h
  refine ⟨⟨fun _ => conflict_of_no_rule h, fun _ => ⟨_, hm⟩⟩, ?_⟩
  intro r hr
  rw [hm] at hr
  cases hr

theorem containsKey_filter_not {β : Type} (a b : List (String × β)) (k : String) :
    containsKey (b.filter (fun kv => !(containsKey a kv.1))) k =
      (containsKey b k && !(containsKey a k)) := by
  cases hca : containsKey a k with
  | true =>
    have h := (dictGet_filter_not_contains a b k).2 hca
    rw [(dictGet_eq_none_iff _ k).mp h]
    simp
  | false =>
    have h := (dictGet_filter_not_contains a b k).1 hca
    cases hcb : containsKey b k with
    | false =>
      have hn := (dictGet_eq_none_iff b k).mpr hcb
      rw [hn] at h
      rw [(dictGet_eq_none_iff _ k).mp h]
      simp
    | true =>
      cases hg : dictGet b k with
      | none =>
        rw [(dictGet_eq_none_iff b k).mp hg] at hcb
        cases hcb
      | some v =>
        rw [hg] at h
        have hne : ¬ containsKey (b.filter (fun kv => !(containsKey a kv.1))) k = false := by
          intro hcf
          rw [(dictGet_eq_none_iff _ k).mpr hcf] at h
          cases h
        rw [Bool.not_eq_false] at hne
        rw [hne]
        simp

theorem nodupKeysS_dict {α : Type} {kvs : List (String × Struct α)}
    (h : nodupKeysS (.dict kvs) = true) :
    (kvs.map Prod.fst).Nodup ∧ ∀ kv ∈ kvs, nodupKeysS (Prod.snd kv) = true := by
  simp only [nodupKeysS, Bool.and_eq_true, Bool.not_eq_true'] at h
  exact ⟨(hasDupKeys_eq_false_iff _).mp h.1, nodupKeysD_mem h.2⟩

/-- C6: for Python-dict-shaped inputs (distinct keys at every dict level),
`merge_params` fails exactly when the two trees are incompatible at some
shared path — no merge rule applies there, or two lists/tuples of different
lengths meet — and otherwise produces the merged tree: every key of either
dict present, one-sided values taken verbatim, shared subtrees merged
recursively, lists/tuples merged elementwise. -/
theorem merge_params_spec {α : Type} :
    ∀ (a b : Struct α), nodupKeysS a = true → nodupKeysS b = true →
      ((∃ e, merge_params a b = .error e) ↔ ∃ p, ConflictAt p a b) ∧
      (∀ r, merge_params a b = .ok r → MergedTree a b r) := by
  intro a
  induction a using Struct.inductionOn with
  | hleaf v =>
    intro b _ _
    exact merge_spec_of_no_rule (by cases b <;> rfl)
  | hlist as ihas =>
    intro b hna hnb
    cases b with
    | leaf w => exact merge_spec_of_no_rule rfl
    | tup bs => exact merge_spec_of_no_rule rfl
    | dict bkvs => exact merge_spec_of_no_rule rfl
    | list bs =>
      have hnas : ∀ x ∈ as, nodupKeysS x = true :=
        nodupKeysL_mem (by simpa [nodupKeysS] using hna)
      have hnbs : ∀ y ∈ bs, nodupKeysS y = true :=
        nodupKeysL_mem (by simpa [nodupKeysS] using hnb)
      by_cases hlen : as.length = bs.length
      · constructor
        · rw [conflict_list_iff]
          constructor
          · rintro ⟨e, he⟩
            right
            simp only [merge_params, if_neg (not_ne_iff.mpr hlen)] at he
            cases hz : mergeZip as bs with
            | ok zs =>
              simp only [hz] at he
              cases he
            | error e₂ =>
              obtain ⟨i, x, y, hx, hy, e₃, hm₃⟩ :=
                (mergeZip_error_iff as bs hlen).mp ⟨e₂, hz⟩
              have hx2 := List.get?_mem hx
              have hy2 := List.get?_mem hy
              exact ⟨i, x, y, hx, hy,
                (ihas x hx2 y (hnas x hx2) (hnbs y hy2)).1.mp ⟨e₃, hm₃⟩⟩
          · rintro (hne | ⟨i, x, y, hx, hy, p, hc⟩)
            · exact absurd hlen hne
            · have hx2 := List.get?_mem hx
              have hy2 := List.get?_mem hy
              obtain ⟨e₃, hm₃⟩ :=
                (ihas x hx2 y (hnas x hx2) (hnbs y hy2)).1.mpr ⟨p, hc⟩
              obtain ⟨e₂, hz⟩ :=
                (mergeZip_error_iff as bs hlen).mpr ⟨i, x, y, hx, hy, e₃, hm₃⟩
              refine ⟨e₂, ?_⟩
              simp only [merge_params, if_neg (not_ne_iff.mpr hlen), hz]
        · intro r hr
          simp only [merge_params, if_neg (not_ne_iff.mpr hlen)] at hr
          cases hz : mergeZip as bs with
          | error e =>
            simp only [hz] at hr
            cases hr
          | ok zs =>
            simp only [hz] at hr
            cases hr
            obtain ⟨hlenz, hpt⟩ := mergeZip_ok as bs zs hz hlen
            refine MergedTree.list hlen hlenz ?_
            intro i x y z hx hy hz₂
            have hx2 := List.get?_mem hx
            have hy2 := List.get?_mem hy
            exact (ihas x hx2 y (hnas x hx2) (hnbs y hy2)).2 z (hpt i x y z hx hy hz₂)
      · refine ⟨⟨fun _ => ⟨[], ConflictAt.listLen hlen⟩, fun _ => ?_⟩, ?_⟩
        · refine ⟨"Cannot merge two lists of different lengths", ?_⟩
          simp only [merge_params, if_pos hlen]
        · intro r hr
          simp only [merge_params, if_pos hlen] at hr
          cases hr
  | htup as ihas =>
    intro b hna hnb
    cases b with
    | leaf w => exact merge_spec_of_no_rule rfl
    | list bs => exact merge_spec_of_no_rule rfl
    | dict bkvs => exact merge_spec_of_no_rule rfl
    | tup bs =>
      have hnas : ∀ x ∈ as, nodupKeysS x = true :=
        nodupKeysL_mem (by simpa [nodupKeysS] using hna)
      have hnbs : ∀ y ∈ bs, nodupKeysS y = true :=
        nodupKeysL_mem (by simpa [nodupKeysS] using hnb)
      by_cases hlen : as.length = bs.length
      · constructor
        · rw [conflict_tup_iff]
          constructor
          · rintro ⟨e, he⟩
            right
            simp only [merge_params, if_neg (not_ne_iff.mpr hlen)] at he
            cases hz : mergeZip as bs with
            | ok zs =>
              simp only [hz] at he
              cases he
            | error e₂ =>
              obtain ⟨i, x, y, hx, hy, e₃, hm₃⟩ :=
                (mergeZip_error_iff as bs hlen).mp ⟨e₂, hz⟩
              have hx2 := List.get?_mem hx
              have hy2 := List.get?_mem hy
              exact ⟨i, x, y, hx, hy,
                (ihas x hx2 y (hnas x hx2) (hnbs y hy2)).1.mp ⟨e₃, hm₃⟩⟩
          · rintro (hne | ⟨i, x, y, hx, hy, p, hc⟩)
            · exact absurd hlen hne
            · have hx2 := List.get?_mem hx
              have hy2 := List.get?_mem hy
              obtain ⟨e₃, hm₃⟩ :=
                (ihas x hx2 y (hnas x hx2) (hnbs y hy2)).1.mpr ⟨p, hc⟩
              obtain ⟨e₂, hz⟩ :=
                (mergeZip_error_iff as bs hlen).mpr ⟨i, x, y, hx, hy, e₃, hm₃⟩
              refine ⟨e₂, ?_⟩
              simp only [merge_params, if_neg (not_ne_iff.mpr hlen), hz]
        · intro r hr
          simp only [merge_params, if_neg (not_ne_iff.mpr hlen)] at hr
          cases hz : mergeZip as bs with
          | error e =>
            simp only [hz] at hr
            cases hr
          | ok zs =>
            simp only [hz] at hr
            cases hr
            obtain ⟨hlenz, hpt⟩ := mergeZip_ok as bs zs hz hlen
            refine MergedTree.tup hlen hlenz ?_
            intro i x y z hx hy hz₂
            have hx2 := List.get?_mem hx
            have hy2 := List.get?_mem hy
            exact (ihas x hx2 y (hnas x hx2) (hnbs y hy2)).2 z (hpt i x y z hx hy hz₂)
      · refine ⟨⟨fun _ => ⟨[], ConflictAt.tupLen hlen⟩, fun _ => ?_⟩, ?_⟩
        · refine ⟨"Cannot merge two tuples of different lengths", ?_⟩
          simp only [merge_params, if_pos hlen]
        · intro r hr
          simp only [merge_params, if_pos hlen] at hr
          cases hr
  | hdict a iha =>
    intro b hna hnb
    cases b with
    | leaf w => exact merge_spec_of_no_rule rfl
    | list bs => exact merge_spec_of_no_rule rfl
    | tup bs => exact merge_spec_of_no_rule rfl
    | dict bkvs =>
      obtain ⟨hndA, hvalA⟩ := nodupKeysS_dict hna
      obtain ⟨hndB, hvalB⟩ := nodupKeysS_dict hnb
      constructor
      · rw [conflict_dict_iff]
        constructor
        · rintro ⟨e, he⟩
          cases hd : mergeDictEntries a bkvs with
          | ok L =>
            simp only [merge_params, hd] at he
            cases he
          | error e₂ =>
            obtain ⟨k, va, w, hva, hw, e₃, hm₃⟩ :=
              (mergeDictEntries_error_iff a bkvs hndA).mp ⟨e₂, hd⟩
            have hmemA := dictGet_mem hva
            have hmemB := dictGet_mem hw
            exact ⟨k, va, w, hva, hw,
              (iha (k, va) hmemA w (hvalA _ hmemA) (hvalB _ hmemB)).1.mp ⟨e₃, hm₃⟩⟩
        · rintro ⟨k, va, vb, hva, hvb, p, hc⟩
          have hmemA := dictGet_mem hva
          have hmemB := dictGet_mem hvb
          obtain ⟨e₃, hm₃⟩ :=
            (iha (k, va) hmemA vb (hvalA _ hmemA) (hvalB _ hmemB)).1.mpr ⟨p, hc⟩
          obtain ⟨e₂, hd⟩ :=
            (mergeDictEntries_error_iff a bkvs hndA).mpr ⟨k, va, vb, hva, hvb, e₃, hm₃⟩
          refine ⟨e₂, ?_⟩
          simp only [merge_params, hd]
      · intro r hr
        cases hd : mergeDictEntries a bkvs with
        | error e =>
          simp only [merge_params, hd] at hr
          cases hr
        | ok L =>
          simp only [merge_params, hd] at hr
          cases hr
          have hkeysL : L.map Prod.fst = a.map Prod.fst := mergeDictEntries_keys a bkvs L hd
          have hlook := mergeDictEntries_lookup a bkvs L hndA hd
          refine MergedTree.dict ?_ ?_ ?_ ?_
          · intro k
            have h1 : containsKey (L ++ bkvs.filter (fun kv => !(containsKey a kv.1))) k =
                (containsKey L k || containsKey
                  (bkvs.filter (fun kv => !(containsKey a kv.1))) k) := by
              simp [containsKey, List.any_append]
            have h2 : containsKey L k = containsKey a k := by
              rw [containsKey_eq, containsKey_eq, hkeysL]
            rw [h1, h2, containsKey_filter_not]
            cases hca : containsKey a k <;> cases hcb : containsKey bkvs k <;> simp
          · intro k v hva hvb
            have hL : dictGet L k = some v := ((hlook k).2 v hva).1 hvb
            simp only [dictGet_append, hL]
          · intro k v hvb hva
            have hca : containsKey a k = false := (dictGet_eq_none_iff a k).mp hva
            have hL : dictGet L k = none := (hlook k).1 hva
            simp only [dictGet_append, hL]
            rw [(dictGet_filter_not_contains a bkvs k).1 hca]
            exact hvb
          · intro k va vb vr hva hvb hvr
            obtain ⟨vr₂, hm₂, hL⟩ := ((hlook k).2 va hva).2 vb hvb
            simp only [dictGet_append, hL, Option.some.injEq] at hvr
            subst hvr
            have hmemA := dictGet_mem hva
            have hmemB := dictGet_mem hvb
            exact (iha (k, va) hmemA vb (hvalA _ hmemA) (hvalB _ hmemB)).2 vr₂ hm₂

/-- Witness for C6: a successful merge of two dicts that share the key "a"
(whose sub-dicts have disjoint keys), plus the absence of any conflict. -/
theorem merge_params_spec_witness :
    MergedTree
      (Struct.dict [("a", Struct.dict [("x", Struct.leaf (1 : Nat))]), ("b", Struct.leaf 2)])
      (Struct.dict [("a", Struct.dict [("y", Struct.leaf 9)]), ("c", Struct.leaf 3)])
      (Struct.dict [("a", Struct.dict [("x", Struct.leaf 1), ("y", Struct.leaf 9)]),
        ("b", Struct.leaf 2), ("c", Struct.leaf 3)]) ∧
    ¬ ∃ p, ConflictAt p
      (Struct.dict [("a", Struct.dict [("x", Struct.leaf (1 : Nat))]), ("b", Struct.leaf 2)])
      (Struct.dict [("a", Struct.dict [("y", Struct.leaf 9)]), ("c", Struct.leaf 3)]) := by
  have h := merge_params_spec
    (Struct.dict [("a", Struct.dict [("x", Struct.leaf (1 : Nat))]), ("b", Struct.leaf 2)])
    (Struct.dict [("a", Struct.dict [("y", Struct.leaf 9)]), ("c", Struct.leaf 3)])
    (by decide) (by decide)
  refine ⟨h.2 _ rfl, ?_⟩
  intro hc
  obtain ⟨e, he⟩ := h.1.mpr hc
  rw [show merge_params
      (Struct.dict [("a", Struct.dict [("x", Struct.leaf (1 : Nat))]), ("b", Struct.leaf 2)])
      (Struct.dict [("a", Struct.dict [("y", Struct.leaf 9)]), ("c", Struct.leaf 3)]) =
      Except.ok (Struct.dict [("a", Struct.dict [("x", Struct.leaf 1), ("y", Struct.leaf 9)]),
        ("b", Struct.leaf 2), ("c", Struct.leaf 3)]) from rfl] at he
  cases he

end ElegyUtils

namespace SpecModel
open ElegyUtils

theorem pairsNu_append {α : Type} (l₁ l₂ : List (SPath × α)) :
    pairsNu (l₁ ++ l₂) = pairsNu l₁ + pairsNu l₂ := by
  simp [pairsNu]

theorem pairsNu_prepend {α : Type} (sg : Seg) (l : List (SPath × α)) :
    pairsNu (l.map (fun pr => (sg :: pr.1, pr.2))) = pairsNu l + 2 * l.length := by
  induction l with
  | nil => rfl
  | cons pr rest ih =>
    simp only [pairsNu, List.map_cons, List.sum_cons] at ih ⊢
    rw [ih]
    simp only [List.length_cons, List.length]
    omega

theorem pairsNu_pos {α : Type} {l : List (SPath × α)} (h : l ≠ []) : 1 ≤ pairsNu l := by
  cases l with
  | nil => exact absurd rfl h
  | cons pr rest =>
    simp only [pairsNu, List.map_cons, List.sum_cons]
    omega

theorem takeWhile_dropWhile_split {γ : Type} (P : γ → Bool) :
    ∀ (l₁ l₂ : List γ), (∀ a ∈ l₁, P a = true) →
      (∀ a, l₂.head? = some a → P a = false) →
      (l₁ ++ l₂).takeWhile P = l₁ ∧ (l₁ ++ l₂).dropWhile P = l₂ := by
  intro l₁
  induction l₁ with
  | nil =>
    intro l₂ _ h₂
    cases l₂ with
    | nil => exact ⟨rfl, rfl⟩
    | cons b bs =>
      simp [List.takeWhile_cons, List.dropWhile_cons, h₂ b rfl]
  | cons a as ih =>
    intro l₂ h₁ h₂
    have ha : P a = true := h₁ a (by simp)
    have hrec := ih l₂ (fun x hx => h₁ x (by simp [hx])) h₂
    simp [List.takeWhile_cons, List.dropWhile_cons, ha, hrec.1, hrec.2]

theorem roundTrippableL_mem {α : Type} {xs : List (Struct α)}
    (h : roundTrippableL xs = true) : ∀ x ∈ xs, roundTrippable x = true := by
  induction xs with
  | nil => simp
  | cons y ys ih =>
    simp only [roundTrippableL, Bool.and_eq_true] at h
    intro x hx
    rcases List.mem_cons.mp hx with rfl | hx
    · exact h.1
    · exact ih h.2 x hx

theorem roundTrippableD_mem {α : Type} {kvs : List (String × Struct α)}
    (h : roundTrippableD kvs = true) :
    ∀ kv ∈ kvs, roundTrippable (Prod.snd kv) = true := by
  induction kvs with
  | nil => simp
  | cons kv₀ rest ih =>
    obtain ⟨k₀, x₀⟩ := kv₀
    simp only [roundTrippableD, Bool.and_eq_true] at h
    intro kv hkv
    rcases List.mem_cons.mp hkv with rfl | hkv
    · exact h.1
    · exact ih h.2 kv hkv

theorem flatten_ne_nil {α : Type} :
    ∀ s : Struct α, roundTrippable s = true → leafPathsS [] s ≠ [] := by
  intro s
  induction s using Struct.inductionOn with
  | hleaf v => intro _ h; simp [leafPathsS] at h
  | hlist xs ih =>
    intro hrt
    simp only [roundTrippable, Bool.and_eq_true, Bool.not_eq_true'] at hrt
    cases xs with
    | nil => simp at hrt
    | cons x rest =>
      have hx : roundTrippable x = true := roundTrippableL_mem hrt.2 x (by simp)
      simp only [leafPathsS, leafPathsIdx]
      intro hcon
      rcases List.append_eq_nil.mp hcon with ⟨h1, _⟩
      simp only [List.nil_append] at h1
      rw [leafPathsS_eq x [Seg.idx 0]] at h1
      exact ih x (by simp) hx (List.map_eq_nil_iff.mp h1)
  | htup xs ih =>
    intro hrt
    simp [roundTrippable] at hrt
  | hdict kvs ih =>
    intro hrt
    simp only [roundTrippable, Bool.and_eq_true, Bool.not_eq_true'] at hrt
    cases kvs with
    | nil => simp at hrt
    | cons kv rest =>
      obtain ⟨k, x⟩ := kv
      have hx : roundTrippable x = true := roundTrippableD_mem hrt.2 (k, x) (by simp)
      simp only [leafPathsS, leafPathsKey]
      intro hcon
      rcases List.append_eq_nil.mp hcon with ⟨h1, _⟩
      simp only [List.nil_append] at h1
      rw [leafPathsS_eq x [Seg.key k]] at h1
      exact ih (k, x) (by simp) hx (List.map_eq_nil_iff.mp h1)

theorem unflattenF_pos {α : Type} (fuel : Nat) (pairs : List (SPath × α))
    (hne : pairs ≠ []) (hheads : ∀ pr ∈ pairs, pr.1 ≠ []) :
    unflattenF (fuel + 1) pairs =
      match unflattenGroups fuel pairs with
      | none => none
      | some groups =>
          if groups.all (fun g => Seg.isIdx g.1) then
            some (Struct.list (groups.map Prod.snd))
          else if groups.all (fun g => Seg.isKey g.1) then
            some (Struct.dict (groups.map (fun g => (segKeyStr g.1, g.2))))
          else none := by
  cases pairs with
  | nil => exact absurd rfl hne
  | cons pr rest =>
    obtain ⟨p, v⟩ := pr
    cases p with
    | nil => exact absurd rfl (hheads ([], v) (by simp))
    | cons sg p2 => rfl

theorem idx_heads {α : Type} {xs : List (Struct α)} {i : Nat} :
    ∀ pr ∈ leafPathsIdx ([] : SPath) i xs, ∃ j q, i ≤ j ∧ pr.1 = Seg.idx j :: q := by
  intro pr hpr
  obtain ⟨p, v⟩ := pr
  obtain ⟨j, x, p₀, _, hp, _⟩ := (mem_leafPathsIdx i p v).mp hpr
  exact ⟨i + j, p₀, by omega, by simpa using hp⟩

theorem key_heads {α : Type} {kvs : List (String × Struct α)} :
    ∀ pr ∈ leafPathsKey ([] : SPath) kvs,
      ∃ k q, k ∈ kvs.map Prod.fst ∧ pr.1 = Seg.key k :: q := by
  intro pr hpr
  obtain ⟨p, v⟩ := pr
  obtain ⟨k, x, p₀, hkv, hp, _⟩ := (mem_leafPathsKey p v).mp hpr
  exact ⟨k, p₀, List.mem_map.mpr ⟨(k, x), hkv, rfl⟩, by simpa using hp⟩

theorem unflattenF_leafPaths {α : Type} :
    ∀ s : Struct α, roundTrippable s = true →
      ∀ fuel, pairsNu (leafPathsS [] s) ≤ fuel →
        unflattenF fuel (leafPathsS [] s) = some s := by
  intro s
  induction s using Struct.inductionOn with
  | hleaf v =>
    intro _ fuel _
    simp [leafPathsS, unflattenF]
  | htup xs ih =>
    intro hrt
    simp [roundTrippable] at hrt
  | hlist xs ih =>
    intro hrt fuel hfuel
    have hrt0 := hrt
    simp only [roundTrippable, Bool.and_eq_true, Bool.not_eq_true'] at hrt
    have hRT : ∀ x ∈ xs, roundTrippable x = true := roundTrippableL_mem hrt.2
    have hne : leafPathsS [] (Struct.list xs) ≠ [] := flatten_ne_nil _ hrt0
    have aux : ∀ (ys : List (Struct α)),
        (∀ x ∈ ys, roundTrippable x = true →
          ∀ fuel2, pairsNu (leafPathsS [] x) ≤ fuel2 →
            unflattenF fuel2 (leafPathsS [] x) = some x) →
        (∀ x ∈ ys, roundTrippable x = true) →
        ∀ i fuel2, pairsNu (leafPathsIdx [] i ys) ≤ fuel2 + 1 →
          unflattenGroups fuel2 (leafPathsIdx [] i ys) =
            some ((ys.enumFrom i).map (fun pr => (Seg.idx pr.1, pr.2))) := by
      intro ys
      induction ys with
      | nil =>
        intro _ _ i fuel2 _
        simp [leafPathsIdx, unflattenGroups, List.enumFrom]
      | cons x rest ihy =>
        intro hIH hRT2 i fuel2 hfuel2
        have hx : roundTrippable x = true := hRT2 x (by simp)
        have hbne : leafPathsS [] x ≠ [] := flatten_ne_nil x hx
        have hA : leafPathsS ([Seg.idx i] : SPath) x =
            (leafPathsS [] x).map (fun pr => (Seg.idx i :: pr.1, pr.2)) :=
          leafPathsS_eq x [Seg.idx i]
        have hnu0 : 1 ≤ pairsNu (leafPathsS [] x) := pairsNu_pos hbne
        have hlen0 : 1 ≤ (leafPathsS [] x).length := by
          cases hb : leafPathsS [] x with
          | nil => exact absurd hb hbne
          | cons b bs => simp
        simp only [leafPathsIdx, List.nil_append] at hfuel2 ⊢
        rw [pairsNu_append, hA, pairsNu_prepend] at hfuel2
        obtain ⟨f, rfl⟩ : ∃ f, fuel2 = f + 1 := by
          cases fuel2 with
          | zero => exfalso; omega
          | succ f => exact ⟨f, rfl⟩
        cases hb : leafPathsS [] x with
        | nil => exact absurd hb hbne
        | cons b bs =>
          obtain ⟨q, w⟩ := b
          rw [hA, hb, List.map_cons, List.cons_append]
          simp only [unflattenGroups]
          have hsplit := takeWhile_dropWhile_split (headIs (Seg.idx i))
            ((Seg.idx i :: q, w) :: bs.map (fun pr => (Seg.idx i :: pr.1, pr.2)))
            (leafPathsIdx [] (i + 1) rest) ?side1 ?side2
          case side1 =>
            intro a ha
            rcases List.mem_cons.mp ha with rfl | ha
            · simp [headIs]
            · obtain ⟨pr, _, rfl⟩ := List.mem_map.mp ha
              simp [headIs]
          case side2 =>
            intro a ha
            have hmem : a ∈ leafPathsIdx ([] : SPath) (i + 1) rest :=
              List.mem_of_mem_head? ha
            obtain ⟨j, q2, hj, hq⟩ := idx_heads a hmem
            simp only [headIs, hq]
            simp only [List.head?_cons, Option.some.injEq, decide_eq_false_iff_not]
            intro hcon
            cases hcon
            omega
          rw [List.cons_append] at hsplit
          rw [hsplit.1, hsplit.2]
          have hstrip : stripHead
              ((Seg.idx i :: q, w) :: bs.map (fun pr => (Seg.idx i :: pr.1, pr.2))) =
              leafPathsS [] x := by
            rw [hb]
            simp only [stripHead, List.map_cons, List.tail_cons, List.map_map]
            exact congrArg (fun l => ((q, w) :: l : List (SPath × α))) (List.map_id bs)
          rw [hstrip]
          have hchild : unflattenF f (leafPathsS [] x) = some x := by
            apply hIH x (by simp) hx
            omega
          have hbs_len : (leafPathsS [] x).length = bs.length + 1 := by rw [hb]; rfl
          have hrest : unflattenGroups f (leafPathsIdx [] (i + 1) rest) =
              some ((rest.enumFrom (i + 1)).map (fun pr => (Seg.idx pr.1, pr.2))) := by
            apply ihy (fun y hy => hIH y (by simp [hy])) (fun y hy => hRT2 y (by simp [hy]))
            omega
          simp only [hchild, hrest]
          simp [List.enumFrom]
    obtain ⟨f, rfl⟩ : ∃ f, fuel = f + 1 := by
      cases fuel with
      | zero =>
        exfalso
        have := pairsNu_pos hne
        omega
      | succ f => exact ⟨f, rfl⟩
    rw [unflattenF_pos f _ hne ?heads]
    case heads =>
      intro pr hpr
      simp only [leafPathsS] at hpr
      obtain ⟨j, q, _, hq⟩ := idx_heads pr hpr
      simp [hq]
    simp only [leafPathsS] at hfuel ⊢
    simp only [aux xs ih hRT 0 f (by omega)]
    have hall : ((xs.enumFrom 0).map (fun pr => (Seg.idx pr.1, pr.2))).all
        (fun g => Seg.isIdx g.1) = true := by
      simp only [List.all_eq_true]
      intro g hg
      obtain ⟨pr, _, rfl⟩ := List.mem_map.mp hg
      rfl
    rw [if_pos hall]
    simp only [List.map_map]
    rw [show List.map (Prod.snd ∘ fun pr => ((Seg.idx pr.1 : Seg), pr.2)) (List.enumFrom 0 xs) =
      List.map Prod.snd (List.enumFrom 0 xs) from rfl, List.enumFrom_map_snd]
  | hdict kvs ih =>
    intro hrt fuel hfuel
    have hrt0 := hrt
    simp only [roundTrippable, Bool.and_eq_true, Bool.not_eq_true'] at hrt
    have hRT : ∀ kv ∈ kvs, roundTrippable (Prod.snd kv) = true :=
      roundTrippableD_mem hrt.2
    have hnodup : (kvs.map Prod.fst).Nodup := (hasDupKeys_eq_false_iff _).mp hrt.1.2
    have hne : leafPathsS [] (Struct.dict kvs) ≠ [] := flatten_ne_nil _ hrt0
    have aux : ∀ (ys : List (String × Struct α)),
        (∀ kv ∈ ys, roundTrippable (Prod.snd kv) = true →
          ∀ fuel2, pairsNu (leafPathsS [] (Prod.snd kv)) ≤ fuel2 →
            unflattenF fuel2 (leafPathsS [] (Prod.snd kv)) = some (Prod.snd kv)) →
        (∀ kv ∈ ys, roundTrippable (Prod.snd kv) = true) →
        (ys.map Prod.fst).Nodup →
        ∀ fuel2, pairsNu (leafPathsKey [] ys) ≤ fuel2 + 1 →
          unflattenGroups fuel2 (leafPathsKey [] ys) =
            some (ys.map (fun kv => (Seg.key kv.1, kv.2))) := by
      intro ys
      induction ys with
      | nil =>
        intro _ _ _ fuel2 _
        simp [leafPathsKey, unflattenGroups]
      | cons kv rest ihy =>
        obtain ⟨k, x⟩ := kv
        intro hIH hRT2 hnd fuel2 hfuel2
        simp only [List.map_cons, List.nodup_cons] at hnd
        have hx : roundTrippable x = true := hRT2 (k, x) (by simp)
        have hbne : leafPathsS [] x ≠ [] := flatten_ne_nil x hx
        have hA : leafPathsS ([Seg.key k] : SPath) x =
            (leafPathsS [] x).map (fun pr => (Seg.key k :: pr.1, pr.2)) :=
          leafPathsS_eq x [Seg.key k]
        have hnu0 : 1 ≤ pairsNu (leafPathsS [] x) := pairsNu_pos hbne
        have hlen0 : 1 ≤ (leafPathsS [] x).length := by
          cases hb : leafPathsS [] x with
          | nil => exact absurd hb hbne
          | cons b bs => simp
        simp only [leafPathsKey, List.nil_append] at hfuel2 ⊢
        rw [pairsNu_append, hA, pairsNu_prepend] at hfuel2
        obtain ⟨f, rfl⟩ : ∃ f, fuel2 = f + 1 := by
          cases fuel2 with
          | zero => exfalso; omega
          | succ f => exact ⟨f, rfl⟩
        cases hb : leafPathsS [] x with
        | nil => exact absurd hb hbne
        | cons b bs =>
          obtain ⟨q, w⟩ := b
          rw [hA, hb, List.map_cons, List.cons_append]
          simp only [unflattenGroups]
          have hsplit := takeWhile_dropWhile_split (headIs (Seg.key k))
            ((Seg.key k :: q, w) :: bs.map (fun pr => (Seg.key k :: pr.1, pr.2)))
            (leafPathsKey [] rest) ?sideA ?sideB
          case sideA =>
            intro a ha
            rcases List.mem_cons.mp ha with rfl | ha
            · simp [headIs]
            · obtain ⟨pr, _, rfl⟩ := List.mem_map.mp ha
              simp [headIs]
          case sideB =>
            intro a ha
            have hmem : a ∈ leafPathsKey ([] : SPath) rest :=
              List.mem_of_mem_head? ha
            obtain ⟨k2, q2, hk2, hq⟩ := key_heads a hmem
            simp only [headIs, hq]
            simp only [List.head?_cons, Option.some.injEq, decide_eq_false_iff_not]
            intro hcon
            cases hcon
            exact hnd.1 hk2
          rw [List.cons_append] at hsplit
          rw [hsplit.1, hsplit.2]
          have hstrip : stripHead
              ((Seg.key k :: q, w) :: bs.map (fun pr => (Seg.key k :: pr.1, pr.2))) =
              leafPathsS [] x := by
            rw [hb]
            simp only [stripHead, List.map_cons, List.tail_cons, List.map_map]
            exact congrArg (fun l => ((q, w) :: l : List (SPath × α))) (List.map_id bs)
          rw [hstrip]
          have hchild : unflattenF f (leafPathsS [] x) = some x := by
            apply hIH (k, x) (by simp) hx
            show pairsNu (leafPathsS [] x) ≤ f
            omega
          have hbs_len : (leafPathsS [] x).length = bs.length + 1 := by rw [hb]; rfl
          have hrest : unflattenGroups f (leafPathsKey [] rest) =
              some (rest.map (fun kv => (Seg.key kv.1, kv.2))) := by
            apply ihy (fun y hy => hIH y (by simp [hy])) (fun y hy => hRT2 y (by simp [hy]))
              hnd.2
            omega
          simp only [hchild, hrest]
          rfl
    obtain ⟨f, rfl⟩ : ∃ f, fuel = f + 1 := by
      cases fuel with
      | zero =>
        exfalso
        have := pairsNu_pos hne
        omega
      | succ f => exact ⟨f, rfl⟩
    rw [unflattenF_pos f _ hne ?headsD]
    case headsD =>
      intro pr hpr
      simp only [leafPathsS] at hpr
      obtain ⟨k, q, _, hq⟩ := key_heads pr hpr
      simp [hq]
    simp only [leafPathsS] at hfuel ⊢
    simp only [aux kvs ih hRT hnodup f (by omega)]
    obtain ⟨kv0, rest0, rfl⟩ : ∃ kv0 rest0, kvs = kv0 :: rest0 := by
      cases hk : kvs with
      | nil =>
        exfalso
        rw [hk] at hrt
        simp at hrt
      | cons kv0 rest0 => exact ⟨kv0, rest0, rfl⟩
    have hallIdx : ((kv0 :: rest0).map (fun kv => (Seg.key kv.1, kv.2))).all
        (fun g => Seg.isIdx g.1) = false := by
      simp only [List.map_cons, List.all_cons]
      rw [show Seg.isIdx (Seg.key kv0.1) = false from rfl]
      simp
    have hallKey : ((kv0 :: rest0).map (fun kv => (Seg.key kv.1, kv.2))).all
        (fun g => Seg.isKey g.1) = true := by
      simp only [List.all_eq_true]
      intro g hg
      obtain ⟨pr, _, rfl⟩ := List.mem_map.mp hg
      rfl
    rw [if_neg (by rw [hallIdx]; exact Bool.false_ne_true), if_pos hallKey]
    simp only [List.map_map]
    rw [show List.map ((fun g => (segKeyStr g.1, g.2)) ∘
        fun kv : String × Struct α => ((Seg.key kv.1 : Seg), kv.2)) (kv0 :: rest0) =
      List.map id (kv0 :: rest0) from rfl, List.map_id]

/-- C2 (amended): for nested structures without tuples, without empty
containers, and with distinct dict keys at every level, unflattening the
flat (path, leaf) pair list rebuilds exactly the original structure, and
flattening what was unflattened returns exactly the original pairs with
their order preserved. -/
theorem flatten_unflatten_roundtrip {α : Type} (s : Struct α)
    (h : roundTrippable s = true) :
    unflatten (leaf_paths s) = some s ∧
    (unflatten (leaf_paths s)).map leaf_paths = some (leaf_paths s) := by
  have h1 : unflatten (leaf_paths s) = some s := by
    show unflattenF (pairsNu (leaf_paths s) + 1) (leaf_paths s) = some s
    exact unflattenF_leafPaths s h _
      (by show pairsNu (leafPathsS [] s) ≤ pairsNu (leafPathsS [] s) + 1; omega)
  refine ⟨h1, ?_⟩
  rw [h1]
  rfl

/-- Counterexample for C2 as stated: a two-element tuple and the same-shaped
list flatten to identical (path, leaf) pairs, so no unflattening can
reconstruct the original for both; the modelled `unflatten` returns the
list when given the tuple's pairs. -/
theorem flatten_unflatten_counterexample :
    leaf_paths (Struct.tup [Struct.leaf (1 : Nat), Struct.leaf 2]) =
      leaf_paths (Struct.list [Struct.leaf (1 : Nat), Struct.leaf 2]) ∧
    Struct.tup [Struct.leaf (1 : Nat), Struct.leaf 2] ≠
      Struct.list [Struct.leaf (1 : Nat), Struct.leaf 2] ∧
    unflatten (leaf_paths (Struct.tup [Struct.leaf (1 : Nat), Struct.leaf 2])) =
      some (Struct.list [Struct.leaf (1 : Nat), Struct.leaf 2]) := by
  refine ⟨by decide, ?_, rfl⟩
  intro hcon
  exact Struct.noConfusion hcon

/-- Witness for C2 at a concrete two-level dict/list structure. -/
theorem flatten_unflatten_roundtrip_witness :
    unflatten (leaf_paths (Struct.dict
      [("a", Struct.list [Struct.leaf (1 : Nat), Struct.leaf 2]), ("b", Struct.leaf 3)])) =
      some (Struct.dict
        [("a", Struct.list [Struct.leaf (1 : Nat), Struct.leaf 2]), ("b", Struct.leaf 3)]) :=
  (flatten_unflatten_roundtrip _ (by decide)).1

end SpecModel

namespace AdapterModel
open ElegyUtils

/-- C7: for the scenario module, under both the imperative-closure and the
declarative-lazy adapter, `init` at x = 3 yields output 6 with parameter
w = 2 and state n = 0, and a subsequent `apply` with w overridden to 10
yields output 30 and state n = 1 — identical values under both styles. -/
theorem module_scenario_spec :
    impInit scenarioBody 42 3 = .ok (6, [("w", 2)], [("n", 0)]) ∧
    impApply scenarioBody [("w", 10)] [("n", 0)] 3 =
      .ok (30, [("w", 10)], [("n", 1)]) ∧
    linInit scenarioBodyLin 42 3 = .ok (6, [("w", 2)], [("batch_stats", [("n", 0)])]) ∧
    linApply scenarioBodyLin [("w", 10)] [("batch_stats", [("n", 0)])] 3 =
      .ok (30, [("w", 10)], [("batch_stats", [("n", 1)])]) ∧
    (impInit scenarioBody 42 3).map (fun r => r.1) =
      (linInit scenarioBodyLin 42 3).map (fun r => r.1) ∧
    (impApply scenarioBody [("w", 10)] [("n", 0)] 3).map (fun r => r.1) =
      (linApply scenarioBodyLin [("w", 10)] [("batch_stats", [("n", 0)])] 3).map
        (fun r => r.1) := by
  refine ⟨?_, ?_, ?_, ?_, ?_, ?_⟩ <;> decide

/-- C8: `generalize` is idempotent — whatever it returns is returned
unchanged (hence with identical init/apply behavior) when generalized
again; an already-generalized value passes through untouched; and only
unrecognized values fail. -/
theorem generalize_idempotent :
    (∀ m v, generalize m = .ok v → generalize v = .ok v) ∧
    (∀ gm, generalize (ModuleValue.generalized gm) = .ok (ModuleValue.generalized gm)) ∧
    generalize ModuleValue.unsupported = .error "Unsupported module type" := by
  refine ⟨?_, fun gm => rfl, rfl⟩
  intro m v h
  cases m with
  | generalized gm => cases h; rfl
  | styleA body => cases h; rfl
  | styleB body => cases h; rfl
  | unsupported => cases h

/-- Witness for C8: generalizing the imperative scenario module and feeding
the result back through `generalize` returns it unchanged. -/
theorem generalize_idempotent_witness :
    generalize (ModuleValue.generalized (adapterA scenarioBody)) =
      .ok (ModuleValue.generalized (adapterA scenarioBody)) :=
  generalize_idempotent.1 (ModuleValue.styleA scenarioBody)
    (ModuleValue.generalized (adapterA scenarioBody)) rfl

end AdapterModel
